import Mathlib

/-!
# A shallow embedding of the allocator in osmem.c

The block list (a linked list threaded through headers that live inside the
managed memory) is embedded as a `List block_meta` in list order: the head pointer is
the first element, `next` is the tail (field `head` of the state).  The `prev` links are written by the
program but never read, so they carry no information and are left out.

* `size_t` arithmetic is arithmetic modulo `WORD = 2 ^ 64`.
* `sizeof(struct block_meta)` comes from a header that is not part of the
  sources; it is the parameter `hdr` of every operation.
* The operating system is modelled by the program break `brk` and the list
  `maps` of live anonymous mappings.  The address returned by `mmap` is an input
  `m` of every operation that may call it.  A pointer is a natural number, `0`
  being `NULL`.
* An operation returns `none` when the process does not return normally from
  it: a `DIE` after a failed primitive, or an access to a header that is not
  there (a header in a region that has been unmapped, or a pointer that is not
  the payload of a block the state knows).
* Payload bytes are not modelled, so `memset` and `memcpy` have no counterpart.

The embedding identifies a header with its address; it is faithful on states
in which block headers have pairwise distinct addresses.  A node stays in the
list when its mapping is unmapped; when the kernel returns its address again
and the program stores a header there, the node takes the stored fields
(`write_header`).
-/

namespace OsMem

/-! ## Machine words -/

/-- Number of values of a `size_t`. -/
def WORD : Nat := 2 ^ 64

/-- The constant `MMAP_THRESHOLD`. -/
def MMAP_THRESHOLD : Nat := 128 * 1024

/-- The constant `HEAP_PREALLOC_SIZE`. -/
def HEAP_PREALLOC_SIZE : Nat := 128 * 1024

/-- Addition of two `size_t` values. -/
def wadd (a b : Nat) : Nat := (a + b) % WORD

/-- Subtraction of two `size_t` values. -/
def wsub (a b : Nat) : Nat := (a + (WORD - b % WORD)) % WORD

/-- Multiplication of two words modulo `M`. -/
def mul_mod (M a b : Nat) : Nat := (a * b) % M

/-- The expression `(size + 7) & ~7`: the wrapped sum with its three low bits cleared. -/
def align8 (size : Nat) : Nat := wadd size 7 / 8 * 8

/-- Rounding up to a multiple of 8 in the natural numbers (no wrap-around). -/
def roundUp8 (size : Nat) : Nat := (size + 7) / 8 * 8

/-! ## Data model -/

/-- The three values of the `status` field. -/
inductive Status where
  | STATUS_FREE
  | STATUS_ALLOC
  | STATUS_MAPPED
deriving DecidableEq, Repr

/-- A `struct block_meta`, together with the address it is stored at. -/
structure block_meta where
  addr : Nat
  size : Nat
  status : Status
deriving DecidableEq, Repr

/-- Allocator and operating-system state.

* `head`: the list of headers reachable from the global `head`, in list order;
* `maps`: live anonymous mappings as pairs (base address, length);
* `brk`: the program break;
* `preallocated`: the static flag of `os_malloc`. -/
structure State where
  head : List block_meta
  maps : List (Nat × Nat)
  brk : Nat
  preallocated : Bool
deriving DecidableEq, Repr

/-- The state of a fresh process whose program break is `brk0`. -/
def init (brk0 : Nat) : State := ⟨[], [], brk0, false⟩

/-! ## Operating-system primitives -/

/-- The call `sbrk(inc)`: `inc` is read as a signed 64-bit increment.  The result is the
new break, or `none` when the call fails. -/
def sbrk (brk inc : Nat) : Option Nat :=
  if inc < 2 ^ 63 then
    if brk + inc < WORD then some (brk + inc) else none
  else
    if WORD - inc ≤ brk then some (brk - (WORD - inc)) else none

/-- The call `mmap(NULL, len, ...)` returning `m`; a zero length is an error. -/
def mmap (maps : List (Nat × Nat)) (m len : Nat) : Option (List (Nat × Nat)) :=
  if len = 0 then none else some ((m, len) :: maps)

/-- The call `munmap(a, _)`: the mapping based at `a` is gone afterwards. -/
def munmap (maps : List (Nat × Nat)) (a : Nat) : List (Nat × Nat) :=
  maps.filter (fun e => e.1 != a)

/-- There is a live mapping based at `a`. -/
def mapped_live (maps : List (Nat × Nat)) (a : Nat) : Bool :=
  maps.any (fun e => e.1 == a)

/-- A header that records `STATUS_MAPPED` lives in a mapping; it dangles once that
mapping has been unmapped, and reading it is a fault. -/
def dangling (maps : List (Nat × Nat)) (b : block_meta) : Bool :=
  b.status == Status.STATUS_MAPPED && !mapped_live maps b.addr

/-! ## coalesce_blocks -/

/-- The loop of `coalesce_blocks` with `block` the current node and the argument list
the chain `block->next`. -/
def coalesce_from (hdr : Nat) (block : block_meta) : List block_meta → List block_meta
  | [] => [block]
  | next :: rest =>
    if block.status = Status.STATUS_FREE ∧ next.status = Status.STATUS_FREE then
      coalesce_from hdr { block with size := wadd block.size (wadd next.size hdr) } rest
    else
      block :: coalesce_from hdr next rest

/-- The function `coalesce_blocks` on the list reachable from `head`. -/
def coalesce_blocks (hdr : Nat) : List block_meta → List block_meta
  | [] => []
  | head :: rest => coalesce_from hdr head rest

/-! ## os_malloc -/

/-- The best-fit loop of `os_malloc`: `i` is the position of the node under the cursor
and `best` the value of `best_block` (position and header). -/
def find_best (size : Nat) : List block_meta → Nat → Option (Nat × block_meta) → Option (Nat × block_meta)
  | [], _, best => best
  | block :: rest, i, best =>
    if block.status = Status.STATUS_FREE ∧ size ≤ block.size then
      match best with
      | none => find_best size rest (i + 1) (some (i, block))
      | some (j, bb) =>
        if block.size < bb.size then find_best size rest (i + 1) (some (i, block))
        else find_best size rest (i + 1) (some (j, bb))
    else find_best size rest (i + 1) best

/-- The list `l` with the node at position `i` replaced by the nodes `new`. -/
def replace_at (l : List block_meta) (i : Nat) (new : List block_meta) : List block_meta :=
  l.take i ++ new ++ l.drop (i + 1)

/-- The branch of `os_malloc` taken when `best_block != NULL`; `l` is the coalesced
list and `size` the aligned request. -/
def malloc_best (hdr : Nat) (s : State) (l : List block_meta) (size i : Nat) (best : block_meta) :
    State × Nat :=
  let rem := wsub (wsub best.size size) hdr
  if wadd (wadd size hdr) 8 ≤ best.size ∧ 8 ≤ rem then
    ({ s with head := replace_at l i [{ best with size := size, status := Status.STATUS_ALLOC },
        ⟨best.addr + hdr + size, rem, Status.STATUS_FREE⟩] },
     best.addr + hdr)
  else
    ({ s with head := replace_at l i [{ best with status := Status.STATUS_ALLOC }] },
     best.addr + hdr)

/-- The tail of `os_malloc` from "Initializez metadatele noului block": the new header at
`new_mem` is appended to the list. -/
def malloc_append (hdr : Nat) (s : State) (l : List block_meta) (size new_mem : Nat) : State × Nat :=
  let status := if MMAP_THRESHOLD ≤ size then Status.STATUS_MAPPED else Status.STATUS_ALLOC
  ({ s with head := l ++ [⟨new_mem, size, status⟩] }, new_mem + hdr)

/-- The body of `os_malloc`; `retry` stands for the self-call `os_malloc(size)` made after
the preallocation.  `coalesce_blocks` reads every node of the list, so the call does not
return when one of them has been unmapped.  The preallocation overwrites `head`: the nodes
linked before are no longer part of the list. -/
def os_malloc_body (hdr : Nat) (retry : State → Nat → Nat → Option (State × Nat))
    (s : State) (size m : Nat) : Option (State × Nat) :=
  if size = 0 then some (s, 0)
  else
    let size := align8 size
    if s.head.any (dangling s.maps) then none
    else
      let l := coalesce_blocks hdr s.head
      match find_best size l 0 none with
      | some (i, best) => some (malloc_best hdr s l size i best)
      | none =>
        match l.getLast?.filter (fun b => b.status = Status.STATUS_FREE) with
        | some last =>
          let additional_size := wsub size last.size
          match sbrk s.brk additional_size with
          | none => none
          | some brk1 =>
            let grown : block_meta :=
              { last with size := wadd last.size additional_size,
                          status := Status.STATUS_ALLOC }
            some ({ s with head := l.dropLast ++ [grown], brk := brk1 }, last.addr + hdr)
        | none =>
          if size < MMAP_THRESHOLD then
            if s.preallocated = false then
              match sbrk s.brk HEAP_PREALLOC_SIZE with
              | none => none
              | some brk1 =>
                let prealloc_block : block_meta :=
                  ⟨s.brk, wsub HEAP_PREALLOC_SIZE hdr, Status.STATUS_FREE⟩
                retry { s with head := [prealloc_block], brk := brk1, preallocated := true }
                  size m
            else
              match sbrk s.brk (wadd size hdr) with
              | none => none
              | some brk1 => some (malloc_append hdr { s with brk := brk1 } l size s.brk)
          else
            match mmap s.maps m (wadd size hdr) with
            | none => none
            | some maps1 => some (malloc_append hdr { s with maps := maps1 } l size m)

/-- The function `os_malloc` with a bound on the depth of its self-calls. -/
def os_malloc_fuel (hdr : Nat) : Nat → State → Nat → Nat → Option (State × Nat)
  | 0 => fun _ _ _ => none
  | fuel + 1 => os_malloc_body hdr (os_malloc_fuel hdr fuel)

/-- The function `os_malloc`: it calls itself at most once, after the preallocation. -/
def os_malloc (hdr : Nat) (s : State) (size m : Nat) : Option (State × Nat) :=
  os_malloc_fuel hdr 2 s size m

/-! ## os_free -/

/-- The first node of the list whose header is stored at `a`, with the nodes before and
after it. -/
def split_at (a : Nat) : List block_meta → Option (List block_meta × block_meta × List block_meta)
  | [] => none
  | b :: rest =>
    if b.addr = a then some ([], b, rest)
    else
      match split_at a rest with
      | none => none
      | some (pre, x, post) => some (b :: pre, x, post)

/-- The effect on the list of the four stores `new_block->size = ...`, `->status = ...`,
`->prev = NULL`, `->next = NULL` made at the start of a region that `mmap` has just
returned.  When no node of the list is stored at that address the list is as it was.  When
one is (a node whose mapping has been unmapped and whose address the kernel hands out
again), that node now holds the new fields: the list ends at it.  This is used where the
program maps a region without having walked the list; `os_malloc` reaches its own `mmap`
only after `coalesce_blocks` has read every node, so no unmapped node is linked there. -/
def write_header (l : List block_meta) (new_block : block_meta) : List block_meta :=
  match split_at new_block.addr l with
  | none => l
  | some (pre, _, _) => pre ++ [new_block]

/-- The function `os_free`.  The header at `ptr - hdr` is a node of the list, or else the
header of a live mapping that is not linked into the list (made by `os_calloc` or
`os_realloc`, or left behind when the preallocation replaced `head`); such a header records
`STATUS_MAPPED`.  The list is not touched when a mapped block is released. -/
def os_free (hdr : Nat) (s : State) (ptr : Nat) : Option State :=
  if ptr = 0 then some s
  else if ptr < hdr then none
  else
    match split_at (ptr - hdr) s.head with
    | some (pre, block, post) =>
      if dangling s.maps block then none
      else if block.status = Status.STATUS_MAPPED then
        some { s with maps := munmap s.maps (ptr - hdr) }
      else if s.head.any (dangling s.maps) then none
      else
        let freed : block_meta := { block with status := Status.STATUS_FREE }
        some { s with head := coalesce_blocks hdr (pre ++ freed :: post) }
    | none =>
      if mapped_live s.maps (ptr - hdr) then
        some { s with maps := munmap s.maps (ptr - hdr) }
      else none

/-! ## os_calloc -/

/-- The overflow test of `os_calloc`, `total_size / nmemb != size`, for words modulo `M`. -/
def calloc_overflow (M nmemb size : Nat) : Bool :=
  mul_mod M nmemb size / nmemb != size

/-- The function `os_calloc`.  In the mapping branch the block is not linked into the list:
the program only stores the four fields of its header at the start of the new region
(`write_header`). -/
def os_calloc (hdr : Nat) (s : State) (nmemb size m : Nat) : Option (State × Nat) :=
  if nmemb = 0 ∨ size = 0 then some (s, 0)
  else if calloc_overflow WORD nmemb size then some (s, 0)
  else
    let total_size := align8 (mul_mod WORD nmemb size)
    let page_size := 4080
    if page_size ≤ total_size then
      match mmap s.maps m (wadd total_size hdr) with
      | none => none
      | some maps1 =>
        let new_block : block_meta := ⟨m, total_size, Status.STATUS_MAPPED⟩
        some ({ s with head := write_header s.head new_block, maps := maps1 }, m + hdr)
    else
      os_malloc hdr s total_size m

/-! ## os_realloc -/

/-- Outcome of the merge loop of `os_realloc`. -/
inductive Grow where
  | done (blocks : List block_meta)
  | short (current : block_meta) (rest : List block_meta)
  | fault
deriving DecidableEq, Repr

/-- The loop "Incerc sa maresc block-ul curent" of `os_realloc`: `current` (the same node as
`block`) absorbs its free successors; the argument list is the chain `current->next`.
`done` carries `current` and what follows it when the function returns `ptr` from inside the
loop, `short` the node and its chain when the loop ends without reaching `size`. -/
def grow_merge (hdr : Nat) (maps : List (Nat × Nat)) (size : Nat) (current : block_meta) :
    List block_meta → Grow
  | [] => Grow.short current []
  | next :: rest =>
    if dangling maps next then Grow.fault
    else if next.status = Status.STATUS_FREE then
      let merged : block_meta := { current with size := wadd current.size (wadd hdr next.size) }
      if rest.head?.any (dangling maps) then Grow.fault
      else if size ≤ merged.size then
        let block : block_meta := { merged with size := size }
        if wadd (wadd size hdr) 8 ≤ block.size then
          Grow.done (block ::
            ⟨block.addr + hdr + size, wsub (wsub block.size size) hdr, Status.STATUS_FREE⟩ :: rest)
        else Grow.done (block :: rest)
      else grow_merge hdr maps size merged rest
    else Grow.short current (next :: rest)

/-- The part of `os_realloc` from "Aloc un nou block de memorie si copiez datele": a new
region is acquired, then the old block is released with `os_free`.  The header of a new
mapping is stored at its start (`write_header`) and is not linked into the list. -/
def realloc_move (hdr : Nat) (s : State) (ptr size m : Nat) : Option (State × Nat) :=
  if MMAP_THRESHOLD ≤ size then
    match mmap s.maps m (wadd size hdr) with
    | none => none
    | some maps1 =>
      let new_block : block_meta := ⟨m, size, Status.STATUS_MAPPED⟩
      match os_free hdr { s with head := write_header s.head new_block, maps := maps1 } ptr with
      | none => none
      | some s2 => some (s2, m + hdr)
  else
    match os_malloc hdr s size m with
    | none => none
    | some (s1, new_ptr) =>
      if new_ptr = 0 then some (s1, 0)
      else
        match os_free hdr s1 ptr with
        | none => none
        | some s2 => some (s2, new_ptr)

/-- The branch `block->status == STATUS_MAPPED` of `os_realloc`, for the block whose header
is at `a`; `size` is aligned.  The header of a new mapping is stored at its start
(`write_header`) and is not linked into the list. -/
def realloc_mapped (hdr : Nat) (s : State) (a size m : Nat) : Option (State × Nat) :=
  if MMAP_THRESHOLD ≤ size then
    match mmap s.maps m (wadd size hdr) with
    | none => none
    | some maps1 =>
      let new_block : block_meta := ⟨m, size, Status.STATUS_MAPPED⟩
      some ({ s with head := write_header s.head new_block, maps := munmap maps1 a }, m + hdr)
  else
    match os_malloc hdr s size m with
    | none => none
    | some (s1, new_ptr) =>
      if new_ptr = 0 then some (s1, 0)
      else some ({ s1 with maps := munmap s1.maps a }, new_ptr)

/-- The function `os_realloc`.  As in `os_free`, the header at `ptr - hdr` is a node of the
list or the header of a live mapping outside the list.  In the shrinking branch the new
node is linked in by writing to the `prev` field of the following node, which must be
readable. -/
def os_realloc (hdr : Nat) (s : State) (ptr size m : Nat) : Option (State × Nat) :=
  if ptr = 0 then os_malloc hdr s size m
  else if size = 0 then (os_free hdr s ptr).map (fun s1 => (s1, 0))
  else if ptr < hdr then none
  else if ptr = hdr then some (s, 0)
  else
    match split_at (ptr - hdr) s.head with
    | none =>
      if mapped_live s.maps (ptr - hdr) then realloc_mapped hdr s (ptr - hdr) (align8 size) m
      else none
    | some (pre, block, post) =>
      if dangling s.maps block then none
      else if block.status = Status.STATUS_FREE then some (s, 0)
      else
        let size := align8 size
        if block.status = Status.STATUS_MAPPED then realloc_mapped hdr s (ptr - hdr) size m
        else if size ≤ block.size then
          if wadd (wadd size hdr) 8 ≤ block.size then
            if post.head?.any (dangling s.maps) then none
            else
              let new_block : block_meta :=
                ⟨block.addr + hdr + size, wsub (wsub block.size size) hdr, Status.STATUS_FREE⟩
              some ({ s with head := pre ++ { block with size := size } :: new_block :: post },
                    ptr)
          else some (s, ptr)
        else
          match grow_merge hdr s.maps size block post with
          | Grow.fault => none
          | Grow.done l => some ({ s with head := pre ++ l }, ptr)
          | Grow.short current rest =>
            let s1 : State := { s with head := pre ++ current :: rest }
            if wadd (wadd current.addr hdr) current.size = s.brk then
              match sbrk s.brk (wsub size current.size) with
              | some brk1 =>
                some ({ s with head := pre ++ { current with size := size } :: rest,
                               brk := brk1 }, ptr)
              | none => realloc_move hdr s1 ptr size m
            else realloc_move hdr s1 ptr size m

/-! ## Sequences of calls -/

/-- A call of one of the four public functions; `m` is the address `mmap` returns if the
call reaches it. -/
inductive Op where
  | malloc (size m : Nat)
  | calloc (nmemb size m : Nat)
  | realloc (ptr size m : Nat)
  | free (ptr : Nat)
deriving DecidableEq, Repr

/-- The state after one call. -/
def step (hdr : Nat) (s : State) : Op → Option State
  | Op.malloc size m => (os_malloc hdr s size m).map (fun r => r.1)
  | Op.calloc nmemb size m => (os_calloc hdr s nmemb size m).map (fun r => r.1)
  | Op.realloc ptr size m => (os_realloc hdr s ptr size m).map (fun r => r.1)
  | Op.free ptr => os_free hdr s ptr

/-- The state after a sequence of calls. -/
def run (hdr : Nat) : State → List Op → Option State
  | s, [] => some s
  | s, op :: ops =>
    match step hdr s op with
    | none => none
    | some s1 => run hdr s1 ops

/-! ## Predicates on block lists -/

/-- No two list-adjacent blocks are both `STATUS_FREE`. -/
def NoAdjFree (l : List block_meta) : Prop :=
  List.Chain' (fun a b => ¬(a.status = Status.STATUS_FREE ∧ b.status = Status.STATUS_FREE)) l

/-- The candidate `r` (position and header) is at least as good a fit as the block `c` at
position `k`: not larger, and not later when both have the same size. -/
def Better (r : Nat × block_meta) (k : Nat) (c : block_meta) : Prop :=
  r.2.size ≤ c.size ∧ (c.size = r.2.size → r.1 ≤ k)

/-- The call is a call of `os_realloc`. -/
def Op.is_realloc : Op → Bool
  | Op.realloc _ _ _ => true
  | _ => false

/-! ## Coalescing as the specification words it -/

/-- The total of `size + hdr` over the blocks of a list. -/
def total_bytes (hdr : Nat) (l : List block_meta) : Nat :=
  (l.map (fun b => b.size + hdr)).sum

/-- Coalescing as the specification describes it: every maximal run of `k ≥ 1` consecutive
`STATUS_FREE` blocks is replaced by one `STATUS_FREE` block at the address of the first block
of the run, whose size is the sum of the sizes of the run plus `(k - 1) * hdr`; the other
blocks are kept as they are.  Here `run` is the rest of the run after its first block. -/
def spec_merge_runs (hdr : Nat) : List block_meta → List block_meta
  | [] => []
  | b :: rest =>
    if b.status = Status.STATUS_FREE then
      let run := rest.takeWhile (fun x => decide (x.status = Status.STATUS_FREE))
      ⟨b.addr, b.size + (run.map (fun x => x.size)).sum + run.length * hdr,
        Status.STATUS_FREE⟩ ::
        spec_merge_runs hdr (rest.dropWhile (fun x => decide (x.status = Status.STATUS_FREE)))
    else b :: spec_merge_runs hdr rest
termination_by l => l.length
decreasing_by
  · simp only [List.length_cons]
    exact Nat.lt_succ_of_le (List.Sublist.length_le (List.dropWhile_sublist _))
  · simp only [List.length_cons]
    exact Nat.lt_succ_self _

theorem coalesce_from_head (hdr : Nat) (rest : List block_meta) :
    ∀ b : block_meta, ∃ sz tl, coalesce_from hdr b rest = ⟨b.addr, sz, b.status⟩ :: tl := by
  induction rest with
  | nil => intro b; exact ⟨b.size, [], rfl⟩
  | cons n rest ih =>
    intro b
    by_cases h : b.status = Status.STATUS_FREE ∧ n.status = Status.STATUS_FREE
    · obtain ⟨sz, tl, e⟩ := ih { b with size := wadd b.size (wadd n.size hdr) }
      exact ⟨sz, tl, by simp only [coalesce_from, h, and_self, if_true] at e ⊢; exact e⟩
    · exact ⟨b.size, coalesce_from hdr n rest, by simp [coalesce_from, h]⟩

theorem coalesce_from_noAdj (hdr : Nat) (rest : List block_meta) :
    ∀ b : block_meta, NoAdjFree (coalesce_from hdr b rest) := by
  induction rest with
  | nil => intro b; exact List.chain'_singleton b
  | cons n rest ih =>
    intro b
    by_cases h : b.status = Status.STATUS_FREE ∧ n.status = Status.STATUS_FREE
    · simpa only [coalesce_from, h, and_self, if_true] using
        ih { b with size := wadd b.size (wadd n.size hdr) }
    · obtain ⟨sz, tl, e⟩ := coalesce_from_head hdr rest n
      have hn := ih n
      simp only [coalesce_from, h, if_false]
      rw [e] at hn ⊢
      exact List.Chain'.cons h hn

theorem coalesce_from_fixed (hdr : Nat) (rest : List block_meta) :
    ∀ b : block_meta, NoAdjFree (b :: rest) → coalesce_from hdr b rest = b :: rest := by
  induction rest with
  | nil => intro b _; rfl
  | cons n rest ih =>
    intro b hb
    have h := List.chain'_cons.mp hb
    simp only [coalesce_from, h.1, if_false, ih n h.2]

theorem coalesce_blocks_noAdj (hdr : Nat) (l : List block_meta) :
    NoAdjFree (coalesce_blocks hdr l) := by
  cases l with
  | nil => exact List.chain'_nil
  | cons b rest => exact coalesce_from_noAdj hdr rest b

theorem coalesce_blocks_fixed (hdr : Nat) (l : List block_meta) (h : NoAdjFree l) :
    coalesce_blocks hdr l = l := by
  cases l with
  | nil => rfl
  | cons b rest => exact coalesce_from_fixed hdr rest b h

/-- C10: coalescing is idempotent.  For every header size and every block list, running
`coalesce_blocks` on the result of `coalesce_blocks` gives back that same result: the same
blocks with the same addresses, sizes and statuses, in the same order. -/
theorem C10_coalesce_blocks_idempotent (hdr : Nat) (l : List block_meta) :
    coalesce_blocks hdr (coalesce_blocks hdr l) = coalesce_blocks hdr l :=
  coalesce_blocks_fixed hdr _ (coalesce_blocks_noAdj hdr l)

/-! ## Zero-sized and overflowing requests -/

/-- The overflow test of `os_calloc` fires exactly on a product that does not fit. -/
theorem calloc_overflow_iff (M nmemb size : Nat) (hn : 0 < nmemb) :
    calloc_overflow M nmemb size = true ↔ M ≤ nmemb * size ∧ 0 < M := by
  unfold calloc_overflow mul_mod
  simp only [bne_iff_ne, ne_eq]
  constructor
  · intro h
    by_contra hc
    apply h
    rcases Nat.eq_zero_or_pos M with hM | hM
    · subst hM
      simp [Nat.mul_div_cancel_left size hn]
    · have : nmemb * size < M := by
        by_contra h2
        exact hc ⟨Nat.le_of_not_lt h2, hM⟩
      rw [Nat.mod_eq_of_lt this, Nat.mul_div_cancel_left size hn]
  · rintro ⟨h, hM⟩
    have h1 : nmemb * size % M < M := Nat.mod_lt _ hM
    have h2 : nmemb * size % M < nmemb * size := lt_of_lt_of_le h1 h
    have h3 : nmemb * size % M / nmemb < size := by
      rw [Nat.div_lt_iff_lt_mul hn]
      rw [Nat.mul_comm size nmemb]; exact h2
    exact Nat.ne_of_lt h3

/-- C7: for every word width `w`, every `nmemb > 0` and `size > 0`, the overflow test of
`os_calloc` (the wrapped product divided by `nmemb` differs from `size`) rejects exactly when
the product `nmemb * size` of natural numbers is at least `2 ^ w`; and whenever the product
does not fit a 64-bit `size_t`, `os_calloc` returns NULL and leaves the block list, the
mappings, the program break and the preallocation flag as they were. -/
theorem C7_calloc_overflow_check (w nmemb size : Nat) (hn : 0 < nmemb) (hs : 0 < size) :
    (calloc_overflow (2 ^ w) nmemb size = true ↔ 2 ^ w ≤ nmemb * size) ∧
    (WORD ≤ nmemb * size →
      ∀ (hdr : Nat) (s : State) (m : Nat), os_calloc hdr s nmemb size m = some (s, 0)) := by
  have hpos : ∀ k : Nat, 0 < 2 ^ k := fun k => Nat.pow_pos (by decide)
  refine ⟨?_, ?_⟩
  · rw [calloc_overflow_iff _ _ _ hn]
    exact ⟨fun h => h.1, fun h => ⟨h, hpos w⟩⟩
  · intro h hdr s m
    have hov : calloc_overflow WORD nmemb size = true :=
      (calloc_overflow_iff _ _ _ hn).mpr ⟨h, hpos 64⟩
    simp [os_calloc, hov, Nat.ne_of_gt hn, Nat.ne_of_gt hs]

/-- C7 at `nmemb = size = 2 ^ 32`, whose product is exactly `2 ^ 64`. -/
theorem C7_witness :
    (0 < 2 ^ 32 ∧ 0 < 2 ^ 32) ∧
    ((calloc_overflow (2 ^ 64) (2 ^ 32) (2 ^ 32) = true ↔ 2 ^ 64 ≤ 2 ^ 32 * 2 ^ 32) ∧
     (WORD ≤ 2 ^ 32 * 2 ^ 32 →
      ∀ (hdr : Nat) (s : State) (m : Nat), os_calloc hdr s (2 ^ 32) (2 ^ 32) m = some (s, 0))) :=
  ⟨⟨by norm_num, by norm_num⟩, C7_calloc_overflow_check 64 (2 ^ 32) (2 ^ 32) (by norm_num) (by norm_num)⟩

/-- C8: for every state, `os_malloc(0)`, `os_calloc(0, n)` and `os_calloc(n, 0)` return NULL
and the state after the call is the state before it: same block list (not even coalesced),
same program break, same mappings. -/
theorem C8_zero_size_requests (hdr : Nat) (s : State) (n m : Nat) :
    os_malloc hdr s 0 m = some (s, 0) ∧
    os_calloc hdr s 0 n m = some (s, 0) ∧
    os_calloc hdr s n 0 m = some (s, 0) := by
  refine ⟨?_, ?_, ?_⟩
  · simp [os_malloc, os_malloc_fuel, os_malloc_body]
  · simp [os_calloc]
  · simp [os_calloc]

/-! ## Best fit -/

theorem find_best_some (size : Nat) (l : List block_meta) :
    ∀ (i j0 : Nat) (b0 : block_meta), j0 < i →
      ∃ r, find_best size l i (some (j0, b0)) = some r ∧ Better r j0 b0 ∧
        (∀ k c, l[k]? = some c → c.status = Status.STATUS_FREE → size ≤ c.size →
          Better r (i + k) c) ∧
        (r = (j0, b0) ∨ (i ≤ r.1 ∧ l[r.1 - i]? = some r.2 ∧
          r.2.status = Status.STATUS_FREE ∧ size ≤ r.2.size)) := by
  induction l with
  | nil =>
    intro i j0 b0 _
    exact ⟨(j0, b0), rfl, ⟨le_refl _, fun _ => le_refl _⟩, by simp, Or.inl rfl⟩
  | cons b rest ih =>
    intro i j0 b0 hj
    by_cases hfit : b.status = Status.STATUS_FREE ∧ size ≤ b.size
    · by_cases hlt : b.size < b0.size
      · obtain ⟨r, hr, hb, hall, hpos⟩ := ih (i + 1) i b (Nat.lt_succ_self i)
        refine ⟨r, by simp [find_best, hfit, hlt, hr], ?_, ?_, ?_⟩
        · exact ⟨by have := hb.1; omega, fun h => by have := hb.1; omega⟩
        · intro k c hk hc hsz
          cases k with
          | zero =>
            simp only [List.getElem?_cons_zero, Option.some.injEq] at hk
            subst hk; simpa using hb
          | succ k =>
            simp only [List.getElem?_cons_succ] at hk
            have := hall k c hk hc hsz
            refine ⟨this.1, fun h => ?_⟩
            have := this.2 h; omega
        · right
          rcases hpos with h | ⟨h1, h2, h3, h4⟩
          · subst h; simpa using hfit
          · refine ⟨by omega, ?_, h3, h4⟩
            have : r.1 - i = (r.1 - (i + 1)) + 1 := by omega
            rw [this, List.getElem?_cons_succ]; exact h2
      · obtain ⟨r, hr, hb, hall, hpos⟩ := ih (i + 1) j0 b0 (Nat.lt_succ_of_lt hj)
        refine ⟨r, by simp [find_best, hfit, hlt, hr], hb, ?_, ?_⟩
        · intro k c hk hc hsz
          cases k with
          | zero =>
            simp only [List.getElem?_cons_zero, Option.some.injEq] at hk
            subst hk
            refine ⟨by have := hb.1; omega, fun h => ?_⟩
            have h2 := hb.2
            have h1 := hb.1
            have : b0.size = r.2.size := by omega
            have := h2 this
            omega
          | succ k =>
            simp only [List.getElem?_cons_succ] at hk
            have := hall k c hk hc hsz
            refine ⟨this.1, fun h => ?_⟩
            have := this.2 h; omega
        · rcases hpos with h | ⟨h1, h2, h3, h4⟩
          · exact Or.inl h
          · right
            refine ⟨by omega, ?_, h3, h4⟩
            have : r.1 - i = (r.1 - (i + 1)) + 1 := by omega
            rw [this, List.getElem?_cons_succ]; exact h2
    · obtain ⟨r, hr, hb, hall, hpos⟩ := ih (i + 1) j0 b0 (Nat.lt_succ_of_lt hj)
      refine ⟨r, by simp [find_best, hfit, hr], hb, ?_, ?_⟩
      · intro k c hk hc hsz
        cases k with
        | zero =>
          simp only [List.getElem?_cons_zero, Option.some.injEq] at hk
          subst hk
          exact absurd ⟨hc, hsz⟩ hfit
        | succ k =>
          simp only [List.getElem?_cons_succ] at hk
          have := hall k c hk hc hsz
          refine ⟨this.1, fun h => ?_⟩
          have := this.2 h; omega
      · rcases hpos with h | ⟨h1, h2, h3, h4⟩
        · exact Or.inl h
        · right
          refine ⟨by omega, ?_, h3, h4⟩
          have : r.1 - i = (r.1 - (i + 1)) + 1 := by omega
          rw [this, List.getElem?_cons_succ]; exact h2

theorem find_best_none (size : Nat) (l : List block_meta) :
    ∀ i : Nat,
      (find_best size l i none = none ∧
        ∀ c ∈ l, ¬(c.status = Status.STATUS_FREE ∧ size ≤ c.size)) ∨
      (∃ r, find_best size l i none = some r ∧ i ≤ r.1 ∧ l[r.1 - i]? = some r.2 ∧
        r.2.status = Status.STATUS_FREE ∧ size ≤ r.2.size ∧
        ∀ k c, l[k]? = some c → c.status = Status.STATUS_FREE → size ≤ c.size →
          Better r (i + k) c) := by
  induction l with
  | nil => intro i; left; exact ⟨rfl, by simp⟩
  | cons b rest ih =>
    intro i
    by_cases hfit : b.status = Status.STATUS_FREE ∧ size ≤ b.size
    · right
      obtain ⟨r, hr, hb, hall, hpos⟩ := find_best_some size rest (i + 1) i b (Nat.lt_succ_self i)
      refine ⟨r, by simp [find_best, hfit, hr], ?_, ?_, ?_, ?_, ?_⟩
      · rcases hpos with h | h
        · subst h; exact le_refl _
        · omega
      · rcases hpos with h | ⟨h1, h2, _, _⟩
        · subst h; simp
        · have : r.1 - i = (r.1 - (i + 1)) + 1 := by omega
          rw [this, List.getElem?_cons_succ]; exact h2
      · rcases hpos with h | ⟨_, _, h3, _⟩
        · subst h; exact hfit.1
        · exact h3
      · rcases hpos with h | ⟨_, _, _, h4⟩
        · subst h; exact hfit.2
        · exact h4
      · intro k c hk hc hsz
        cases k with
        | zero =>
          simp only [List.getElem?_cons_zero, Option.some.injEq] at hk
          subst hk; simpa using hb
        | succ k =>
          simp only [List.getElem?_cons_succ] at hk
          have := hall k c hk hc hsz
          refine ⟨this.1, fun h => ?_⟩
          have := this.2 h; omega
    · rcases ih (i + 1) with ⟨h1, h2⟩ | ⟨r, hr, h1, h2, h3, h4, h5⟩
      · left
        refine ⟨by simp [find_best, hfit, h1], ?_⟩
        intro c hc
        rcases List.mem_cons.mp hc with h | h
        · subst h; exact hfit
        · exact h2 c h
      · right
        refine ⟨r, by simp [find_best, hfit, hr], by omega, ?_, h3, h4, ?_⟩
        · have : r.1 - i = (r.1 - (i + 1)) + 1 := by omega
          rw [this, List.getElem?_cons_succ]; exact h2
        · intro k c hk hc hsz
          cases k with
          | zero =>
            simp only [List.getElem?_cons_zero, Option.some.injEq] at hk
            subst hk
            exact absurd ⟨hc, hsz⟩ hfit
          | succ k =>
            simp only [List.getElem?_cons_succ] at hk
            have := h5 k c hk hc hsz
            refine ⟨this.1, fun h => ?_⟩
            have := this.2 h; omega

/-! ## No two adjacent free blocks -/

theorem getElem?_split (l : List block_meta) (i : Nat) (b : block_meta) (h : l[i]? = some b) :
    l = l.take i ++ b :: l.drop (i + 1) := by
  induction l generalizing i with
  | nil => simp at h
  | cons x rest ih =>
    cases i with
    | zero =>
      simp only [List.getElem?_cons_zero, Option.some.injEq] at h
      subst h; simp
    | succ i =>
      simp only [List.getElem?_cons_succ] at h
      simp only [List.take_succ_cons, List.drop_succ_cons, List.cons_append]
      exact congrArg _ (ih i h)

theorem replace_at_eq (pre post : List block_meta) (b : block_meta) (new : List block_meta) :
    replace_at (pre ++ b :: post) pre.length new = pre ++ new ++ post := by
  simp [replace_at]

theorem getLast?_split (l : List block_meta) (b : block_meta) (h : l.getLast? = some b) :
    l = l.dropLast ++ [b] := by
  cases l with
  | nil => simp at h
  | cons x rest =>
    have hne : x :: rest ≠ [] := List.cons_ne_nil _ _
    rw [List.getLast?_eq_getLast _ hne, Option.some.injEq] at h
    rw [← h]
    exact (List.dropLast_append_getLast hne).symm

theorem noAdj_replace (pre post : List block_meta) (b c : block_meta)
    (h : NoAdjFree (pre ++ b :: post)) (hc : c.status ≠ Status.STATUS_FREE) :
    NoAdjFree (pre ++ c :: post) := by
  unfold NoAdjFree at h ⊢
  rw [List.chain'_split] at h ⊢
  obtain ⟨h1, h2⟩ := h
  rw [List.chain'_append] at h1 ⊢
  refine ⟨⟨h1.1, List.chain'_singleton c, ?_⟩, ?_⟩
  · intro x _ y hy
    simp only [List.head?_cons, Option.mem_def, Option.some.injEq] at hy
    subst hy
    exact fun hx => hc hx.2
  · rw [List.chain'_cons'] at h2 ⊢
    exact ⟨fun y _ hx => hc hx.1, h2.2⟩

theorem noAdj_split (pre post : List block_meta) (b c f : block_meta)
    (h : NoAdjFree (pre ++ b :: post)) (hb : b.status = Status.STATUS_FREE)
    (hc : c.status ≠ Status.STATUS_FREE) :
    NoAdjFree (pre ++ [c, f] ++ post) := by
  have h1 : NoAdjFree (pre ++ c :: post) := noAdj_replace pre post b c h hc
  unfold NoAdjFree at h h1 ⊢
  have e : pre ++ [c, f] ++ post = pre ++ c :: (f :: post) := by simp
  rw [e, List.chain'_split]
  rw [List.chain'_split] at h h1
  refine ⟨h1.1, ?_⟩
  rw [List.chain'_cons]
  refine ⟨fun hx => hc hx.1, ?_⟩
  rw [List.chain'_cons'] at h ⊢
  refine ⟨fun y hy hx => h.2.1 y hy ⟨hb, hx.2⟩, h.2.2⟩

theorem noAdj_append (l : List block_meta) (c : block_meta) (h : NoAdjFree l)
    (hc : c.status ≠ Status.STATUS_FREE) : NoAdjFree (l ++ [c]) := by
  unfold NoAdjFree at h ⊢
  rw [List.chain'_append]
  refine ⟨h, List.chain'_singleton c, ?_⟩
  intro x _ y hy
  simp only [List.head?_cons, Option.mem_def, Option.some.injEq] at hy
  subst hy
  exact fun hx => hc hx.2

theorem find_best_at (size : Nat) (l : List block_meta) (i : Nat) (b : block_meta)
    (h : find_best size l 0 none = some (i, b)) :
    l[i]? = some b ∧ b.status = Status.STATUS_FREE ∧ size ≤ b.size := by
  rcases find_best_none size l 0 with ⟨h1, _⟩ | ⟨r, hr, _, h2, h3, h4, _⟩
  · rw [h1] at h; cases h
  · rw [hr] at h
    simp only [Option.some.injEq] at h
    subst h
    exact ⟨by simpa using h2, h3, h4⟩

theorem malloc_best_noAdj (hdr : Nat) (s : State) (l : List block_meta) (size i : Nat) (best : block_meta)
    (hl : NoAdjFree l) (hi : l[i]? = some best) (hb : best.status = Status.STATUS_FREE) :
    NoAdjFree (malloc_best hdr s l size i best).1.head := by
  have e := getElem?_split l i best hi
  have hlen : (l.take i).length = i := by
    have : i < l.length := by
      rcases Nat.lt_or_ge i l.length with h | h
      · exact h
      · rw [List.getElem?_eq_none h] at hi; cases hi
    simp [List.length_take]; omega
  have hrep : ∀ new, replace_at l i new = l.take i ++ new ++ l.drop (i + 1) := fun _ => rfl
  rw [e] at hl
  by_cases hc : wadd (wadd size hdr) 8 ≤ best.size ∧ 8 ≤ wsub (wsub best.size size) hdr
  · simp only [malloc_best, hc, and_self, if_true, hrep]
    exact noAdj_split _ _ best _ _ hl hb (by simp)
  · simp only [malloc_best, hc, if_false, hrep]
    have := noAdj_replace _ _ best { best with status := Status.STATUS_ALLOC } hl (by simp)
    simpa using this

theorem os_malloc_body_noAdj (hdr : Nat) (retry : State → Nat → Nat → Option (State × Nat))
    (hretry : ∀ s size m s1 p, retry s size m = some (s1, p) →
      (size = 0 → NoAdjFree s.head) → NoAdjFree s1.head)
    (s : State) (size m : Nat) (s1 : State) (p : Nat)
    (h : os_malloc_body hdr retry s size m = some (s1, p))
    (h0 : size = 0 → NoAdjFree s.head) : NoAdjFree s1.head := by
  unfold os_malloc_body at h
  by_cases hs : size = 0
  · rw [if_pos hs] at h
    simp only [Option.some.injEq, Prod.mk.injEq] at h
    rw [← h.1]; exact h0 hs
  · rw [if_neg hs] at h
    dsimp only at h
    have hl := coalesce_blocks_noAdj hdr s.head
    split at h
    · cases h
    · split at h
      · rename_i i best hbest
        obtain ⟨hi, hb, _⟩ := find_best_at _ _ _ _ hbest
        simp only [Option.some.injEq] at h
        have := malloc_best_noAdj hdr s _ (align8 size) i best hl hi hb
        rw [h] at this; exact this
      · split at h
        · rename_i last hlast
          split at h
          · cases h
          · simp only [Option.some.injEq, Prod.mk.injEq] at h
            rw [← h.1]
            simp only
            rw [Option.filter_eq_some] at hlast
            have e := getLast?_split _ _ hlast.1
            rw [e] at hl
            have := noAdj_replace _ [] last
              { last with size := wadd last.size (wsub (align8 size) last.size),
                          status := Status.STATUS_ALLOC } hl (by simp)
            exact this
        · split at h
          · split at h
            · split at h
              · cases h
              · exact hretry _ _ _ _ _ h (fun _ => List.chain'_singleton _)
            · split at h
              · cases h
              · simp only [Option.some.injEq, Prod.mk.injEq, malloc_append] at h
                rw [← h.1]
                exact noAdj_append _ _ hl (by dsimp only; split <;> simp)
          · split at h
            · cases h
            · simp only [Option.some.injEq, Prod.mk.injEq, malloc_append] at h
              rw [← h.1]
              exact noAdj_append _ _ hl (by dsimp only; split <;> simp)

theorem os_malloc_fuel_noAdj (hdr : Nat) (fuel : Nat) :
    ∀ (s : State) (size m : Nat) (s1 : State) (p : Nat),
      os_malloc_fuel hdr fuel s size m = some (s1, p) →
      (size = 0 → NoAdjFree s.head) → NoAdjFree s1.head := by
  induction fuel with
  | zero => intro s size m s1 p h; cases h
  | succ fuel ih => exact os_malloc_body_noAdj hdr _ ih

theorem split_at_eq (a : Nat) (l : List block_meta) :
    ∀ pre b post, split_at a l = some (pre, b, post) →
      l = pre ++ b :: post ∧ b.addr = a ∧ ∀ y ∈ pre, y.addr ≠ a := by
  induction l with
  | nil => intro pre b post h; simp [split_at] at h
  | cons x rest ih =>
    intro pre b post h
    by_cases hx : x.addr = a
    · simp only [split_at, hx, if_true, Option.some.injEq, Prod.mk.injEq] at h
      obtain ⟨rfl, rfl, rfl⟩ := h
      exact ⟨rfl, hx, by simp⟩
    · simp only [split_at, hx, if_false] at h
      split at h
      · cases h
      · rename_i pre1 b1 post1 hrec
        simp only [Option.some.injEq, Prod.mk.injEq] at h
        obtain ⟨rfl, rfl, rfl⟩ := h
        obtain ⟨e, hb, hpre⟩ := ih pre1 b1 post1 hrec
        refine ⟨by rw [e]; rfl, hb, ?_⟩
        intro y hy
        rcases List.mem_cons.mp hy with h | h
        · subst h; exact hx
        · exact hpre y h

theorem split_at_none (a : Nat) (l : List block_meta) (h : ∀ b ∈ l, b.addr ≠ a) :
    split_at a l = none := by
  induction l with
  | nil => rfl
  | cons x rest ih =>
    have hx : x.addr ≠ a := h x (List.mem_cons_self _ _)
    have := ih (fun b hb => h b (List.mem_cons_of_mem _ hb))
    simp [split_at, hx, this]

theorem write_header_cases (l : List block_meta) (b : block_meta) :
    write_header l b = l ∨
    ∃ pre x post, l = pre ++ x :: post ∧ (∀ y ∈ pre, y.addr ≠ b.addr) ∧ x.addr = b.addr ∧
      write_header l b = pre ++ [b] := by
  unfold write_header
  cases h : split_at b.addr l with
  | none => exact Or.inl rfl
  | some r =>
    obtain ⟨pre, x, post⟩ := r
    obtain ⟨e, hx, hpre⟩ := split_at_eq _ _ _ _ _ h
    exact Or.inr ⟨pre, x, post, e, hpre, hx, rfl⟩

theorem write_header_fresh (l : List block_meta) (b : block_meta)
    (h : ∀ y ∈ l, y.addr ≠ b.addr) : write_header l b = l := by
  unfold write_header
  rw [split_at_none _ _ h]

theorem write_header_noAdj (l : List block_meta) (b : block_meta)
    (hb : b.status ≠ Status.STATUS_FREE) (h : NoAdjFree l) : NoAdjFree (write_header l b) := by
  rcases write_header_cases l b with e | ⟨pre, x, post, e, _, _, e2⟩
  · rw [e]; exact h
  · rw [e2]
    rw [e] at h
    unfold NoAdjFree at h ⊢
    rw [List.chain'_append]
    refine ⟨(List.chain'_append.mp h).1, List.chain'_singleton b, ?_⟩
    intro y _ z hz hyz
    simp only [List.head?_cons, Option.mem_def, Option.some.injEq] at hz
    subst hz
    exact hb hyz.2

theorem os_free_noAdj (hdr : Nat) (s : State) (ptr : Nat) (s1 : State)
    (h : os_free hdr s ptr = some s1) (h0 : NoAdjFree s.head) : NoAdjFree s1.head := by
  unfold os_free at h
  split at h
  · simp only [Option.some.injEq] at h; rw [← h]; exact h0
  · split at h
    · cases h
    · split at h
      · split at h
        · cases h
        · split at h
          · simp only [Option.some.injEq] at h; rw [← h]; exact h0
          · split at h
            · cases h
            · simp only [Option.some.injEq] at h; rw [← h]
              exact coalesce_blocks_noAdj hdr _
      · split at h
        · simp only [Option.some.injEq] at h; rw [← h]; exact h0
        · cases h

theorem os_calloc_noAdj (hdr : Nat) (s : State) (nmemb size m : Nat) (s1 : State) (p : Nat)
    (h : os_calloc hdr s nmemb size m = some (s1, p)) (h0 : NoAdjFree s.head) :
    NoAdjFree s1.head := by
  unfold os_calloc at h
  split at h
  · simp only [Option.some.injEq, Prod.mk.injEq] at h; rw [← h.1]; exact h0
  · split at h
    · simp only [Option.some.injEq, Prod.mk.injEq] at h; rw [← h.1]; exact h0
    · dsimp only at h
      split at h
      · split at h
        · cases h
        · simp only [Option.some.injEq, Prod.mk.injEq] at h; rw [← h.1]
          exact write_header_noAdj _ _ (by simp) h0
      · exact os_malloc_fuel_noAdj hdr 2 s _ m s1 p h (fun _ => h0)

theorem step_noAdj (hdr : Nat) (s : State) (op : Op) (s1 : State)
    (hop : op.is_realloc = false) (h : step hdr s op = some s1) (h0 : NoAdjFree s.head) :
    NoAdjFree s1.head := by
  cases op with
  | malloc size m =>
    simp only [step, Option.map_eq_some', Prod.exists] at h
    obtain ⟨a, p, h, rfl⟩ := h
    exact os_malloc_fuel_noAdj hdr 2 s size m a p h (fun _ => h0)
  | calloc nmemb size m =>
    simp only [step, Option.map_eq_some', Prod.exists] at h
    obtain ⟨a, p, h, rfl⟩ := h
    exact os_calloc_noAdj hdr s nmemb size m a p h h0
  | realloc ptr size m => cases hop
  | free ptr => exact os_free_noAdj hdr s ptr s1 h h0

theorem run_noAdj (hdr : Nat) (ops : List Op) :
    ∀ (s s1 : State), (∀ op ∈ ops, op.is_realloc = false) → run hdr s ops = some s1 →
      NoAdjFree s.head → NoAdjFree s1.head := by
  induction ops with
  | nil =>
    intro s s1 _ h h0
    simp only [run, Option.some.injEq] at h
    rw [← h]; exact h0
  | cons op ops ih =>
    intro s s1 hops h h0
    simp only [run] at h
    split at h
    · cases h
    · rename_i s2 hstep
      exact ih s2 s1 (fun o ho => hops o (List.mem_cons_of_mem _ ho)) h
        (step_noAdj hdr s op s2 (hops op (List.mem_cons_self _ _)) hstep h0)

theorem os_malloc_unfold (hdr : Nat) (s : State) (size m : Nat) :
    os_malloc hdr s size m =
      os_malloc_body hdr (os_malloc_body hdr (fun _ _ _ => none)) s size m := rfl

theorem os_malloc_body_best (hdr : Nat) (retry : State → Nat → Nat → Option (State × Nat))
    (s : State) (size m i : Nat) (best : block_meta) (hs : size ≠ 0)
    (hlive : s.head.any (dangling s.maps) = false)
    (hb : find_best (align8 size) (coalesce_blocks hdr s.head) 0 none = some (i, best)) :
    os_malloc_body hdr retry s size m =
      some (malloc_best hdr s (coalesce_blocks hdr s.head) (align8 size) i best) := by
  unfold os_malloc_body
  rw [if_neg hs]
  dsimp only
  rw [hlive, hb]
  simp

theorem align8_eq_roundUp8 (size : Nat) (h : size + 7 < WORD) : align8 size = roundUp8 size := by
  unfold align8 roundUp8 wadd
  rw [Nat.mod_eq_of_lt h]

theorem roundUp8_ge (size : Nat) : size ≤ roundUp8 size := by
  unfold roundUp8; omega

theorem wadd_lt (a b : Nat) : wadd a b < WORD := Nat.mod_lt _ (by decide)

theorem coalesce_from_size_lt (hdr : Nat) (rest : List block_meta) :
    ∀ b : block_meta, b.size < WORD → (∀ c ∈ rest, c.size < WORD) →
      ∀ c ∈ coalesce_from hdr b rest, c.size < WORD := by
  induction rest with
  | nil =>
    intro b hb _ c hc
    simp only [coalesce_from, List.mem_singleton] at hc
    subst hc; exact hb
  | cons n rest ih =>
    intro b hb hrest c hc
    have hn : n.size < WORD := hrest n (List.mem_cons_self _ _)
    have hr : ∀ c ∈ rest, c.size < WORD := fun c h => hrest c (List.mem_cons_of_mem _ h)
    by_cases h : b.status = Status.STATUS_FREE ∧ n.status = Status.STATUS_FREE
    · simp only [coalesce_from, h, and_self, if_true] at hc
      exact ih _ (wadd_lt _ _) hr c hc
    · simp only [coalesce_from, h, if_false, List.mem_cons] at hc
      rcases hc with hc | hc
      · subst hc; exact hb
      · exact ih n hn hr c hc

theorem coalesce_blocks_size_lt (hdr : Nat) (l : List block_meta) (h : ∀ c ∈ l, c.size < WORD) :
    ∀ c ∈ coalesce_blocks hdr l, c.size < WORD := by
  cases l with
  | nil => intro c hc; simp [coalesce_blocks] at hc
  | cons b rest =>
    exact coalesce_from_size_lt hdr rest b (h b (List.mem_cons_self _ _))
      (fun c hc => h c (List.mem_cons_of_mem _ hc))

theorem malloc_best_frame (hdr : Nat) (s : State) (l : List block_meta) (size i : Nat)
    (best : block_meta) :
    (malloc_best hdr s l size i best).2 = best.addr + hdr ∧
    (malloc_best hdr s l size i best).1.brk = s.brk ∧
    (malloc_best hdr s l size i best).1.maps = s.maps ∧
    (malloc_best hdr s l size i best).1.preallocated = s.preallocated := by
  unfold malloc_best
  dsimp only
  split <;> simp

/-- General part of C2. -/
theorem os_malloc_best_fit (hdr : Nat) (s : State) (size m : Nat)
    (hpos : 0 < size) (hwords : ∀ b ∈ s.head, b.size < WORD)
    (hlive : s.head.any (dangling s.maps) = false)
    (hfit : ∃ c ∈ coalesce_blocks hdr s.head,
      c.status = Status.STATUS_FREE ∧ roundUp8 size ≤ c.size) :
    ∃ (i : Nat) (best : block_meta) (s1 : State),
      (coalesce_blocks hdr s.head)[i]? = some best ∧
      best.status = Status.STATUS_FREE ∧ roundUp8 size ≤ best.size ∧
      (∀ (k : Nat) (c : block_meta), (coalesce_blocks hdr s.head)[k]? = some c →
        c.status = Status.STATUS_FREE → roundUp8 size ≤ c.size →
        best.size ≤ c.size ∧ (c.size = best.size → i ≤ k)) ∧
      os_malloc hdr s size m = some (s1, best.addr + hdr) ∧
      s1.brk = s.brk ∧ s1.maps = s.maps := by
  obtain ⟨c, hc, hcf, hcs⟩ := hfit
  have hcw := coalesce_blocks_size_lt hdr s.head hwords c hc
  have hsz : size + 7 < WORD := by
    have := roundUp8_ge size
    unfold roundUp8 at hcs
    by_contra hcon
    have : WORD ≤ (size + 7) / 8 * 8 := by
      unfold WORD at hcon ⊢
      omega
    omega
  have ha := align8_eq_roundUp8 size hsz
  rcases find_best_none (roundUp8 size) (coalesce_blocks hdr s.head) 0 with
    ⟨_, h2⟩ | ⟨r, hr, _, h2, h3, h4, h5⟩
  · exact absurd ⟨hcf, hcs⟩ (h2 c hc)
  · obtain ⟨i, best⟩ := r
    have hm := os_malloc_body_best hdr (os_malloc_body hdr (fun _ _ _ => none)) s size m i best
      (Nat.ne_of_gt hpos) hlive (by rw [ha]; exact hr)
    obtain ⟨f1, f2, f3, _⟩ :=
      malloc_best_frame hdr s (coalesce_blocks hdr s.head) (align8 size) i best
    refine ⟨i, best, (malloc_best hdr s (coalesce_blocks hdr s.head) (align8 size) i best).1,
      by simpa using h2, h3, h4, ?_, ?_, f2, f3⟩
    · intro k c hk hcf hcs
      have := h5 k c hk hcf hcs
      simpa [Better] using this
    · rw [os_malloc_unfold, hm, ← f1]

/-! ## Word arithmetic without wrap-around -/

theorem wsub_eq (a b : Nat) (hb : b ≤ a) (ha : a < WORD) : wsub a b = a - b := by
  unfold wsub
  have hbw : b < WORD := lt_of_le_of_lt hb ha
  rw [Nat.mod_eq_of_lt hbw]
  have : a + (WORD - b) = (a - b) + WORD := by omega
  rw [this, Nat.add_mod_right, Nat.mod_eq_of_lt (by omega)]

theorem wadd_eq (a b : Nat) (h : a + b < WORD) : wadd a b = a + b := by
  unfold wadd; exact Nat.mod_eq_of_lt h

theorem os_malloc_best_result (hdr : Nat) (s : State) (size m i : Nat) (best : block_meta)
    (hs : size ≠ 0) (hlive : s.head.any (dangling s.maps) = false)
    (hb : find_best (align8 size) (coalesce_blocks hdr s.head) 0 none = some (i, best)) :
    ∃ s1, os_malloc hdr s size m = some (s1, best.addr + hdr) ∧
      s1.brk = s.brk ∧ s1.maps = s.maps := by
  have hm := os_malloc_body_best hdr (os_malloc_body hdr (fun _ _ _ => none)) s size m i best
    hs hlive hb
  obtain ⟨f1, f2, f3, _⟩ :=
    malloc_best_frame hdr s (coalesce_blocks hdr s.head) (align8 size) i best
  refine ⟨(malloc_best hdr s (coalesce_blocks hdr s.head) (align8 size) i best).1, ?_, f2, f3⟩
  rw [os_malloc_unfold, hm, ← f1]

/-! ## The calls malloc(100), malloc(200), free(first), malloc(50) -/

theorem reuse_step1 (hdr b0 m : Nat) (h1 : hdr ≤ 1024) (hb : b0 + 131072 < WORD) :
    os_malloc hdr (init b0) 100 m =
      some (⟨[⟨b0, 104, Status.STATUS_ALLOC⟩,
              ⟨b0 + hdr + 104, 130968 - 2 * hdr, Status.STATUS_FREE⟩],
             [], b0 + 131072, true⟩, b0 + hdr) := by
  have e1 : align8 100 = 104 := by decide
  have e2 : align8 104 = 104 := by decide
  have hW : WORD = 18446744073709551616 := by decide
  have e3 : wsub HEAP_PREALLOC_SIZE hdr = 131072 - hdr :=
    wsub_eq _ _ (by unfold HEAP_PREALLOC_SIZE; omega) (by decide)
  have e4 : wadd (wadd 104 hdr) 8 = 112 + hdr := by
    rw [wadd_eq 104 hdr (by omega), wadd_eq _ 8 (by omega)]; omega
  have e5 : wsub (wsub (131072 - hdr) 104) hdr = 130968 - 2 * hdr := by
    rw [wsub_eq _ 104 (by omega) (by omega), wsub_eq _ hdr (by omega) (by omega)]; omega
  have c1 : 104 ≤ 131072 - hdr := by omega
  have c2 : 112 + hdr ≤ 131072 - hdr := by omega
  have c3 : 8 ≤ 130968 - 2 * hdr := by omega
  have hs : sbrk b0 HEAP_PREALLOC_SIZE = some (b0 + 131072) := by
    simp [sbrk, HEAP_PREALLOC_SIZE, hb]
  rw [os_malloc_unfold]
  simp [os_malloc_body, init, e1, e2, e3, e4, e5, c1, c2, c3, hs, coalesce_blocks, coalesce_from,
    find_best, MMAP_THRESHOLD, malloc_best, replace_at, dangling]

theorem reuse_step2 (hdr b0 m : Nat) (h1 : hdr ≤ 1024) :
    os_malloc hdr ⟨[⟨b0, 104, Status.STATUS_ALLOC⟩,
              ⟨b0 + hdr + 104, 130968 - 2 * hdr, Status.STATUS_FREE⟩],
             [], b0 + 131072, true⟩ 200 m =
      some (⟨[⟨b0, 104, Status.STATUS_ALLOC⟩,
              ⟨b0 + hdr + 104, 200, Status.STATUS_ALLOC⟩,
              ⟨b0 + hdr + 104 + hdr + 200, 130768 - 3 * hdr, Status.STATUS_FREE⟩],
             [], b0 + 131072, true⟩, b0 + hdr + 104 + hdr) := by
  have e1 : align8 200 = 200 := by decide
  have hW : WORD = 18446744073709551616 := by decide
  have e4 : wadd (wadd 200 hdr) 8 = 208 + hdr := by
    rw [wadd_eq 200 hdr (by omega), wadd_eq _ 8 (by omega)]; omega
  have e5 : wsub (wsub (130968 - 2 * hdr) 200) hdr = 130768 - 3 * hdr := by
    rw [wsub_eq _ 200 (by omega) (by omega), wsub_eq _ hdr (by omega) (by omega)]; omega
  have c1 : 200 ≤ 130968 - 2 * hdr := by omega
  have c2 : 208 + hdr ≤ 130968 - 2 * hdr := by omega
  have c3 : 8 ≤ 130768 - 3 * hdr := by omega
  rw [os_malloc_unfold]
  simp [os_malloc_body, e1, e4, e5, c1, c2, c3, coalesce_blocks, coalesce_from,
    find_best, malloc_best, replace_at, dangling]

theorem reuse_step3 (hdr b0 : Nat) (h0 : 0 < hdr) :
    os_free hdr ⟨[⟨b0, 104, Status.STATUS_ALLOC⟩,
              ⟨b0 + hdr + 104, 200, Status.STATUS_ALLOC⟩,
              ⟨b0 + hdr + 104 + hdr + 200, 130768 - 3 * hdr, Status.STATUS_FREE⟩],
             [], b0 + 131072, true⟩ (b0 + hdr) =
      some ⟨[⟨b0, 104, Status.STATUS_FREE⟩,
              ⟨b0 + hdr + 104, 200, Status.STATUS_ALLOC⟩,
              ⟨b0 + hdr + 104 + hdr + 200, 130768 - 3 * hdr, Status.STATUS_FREE⟩],
             [], b0 + 131072, true⟩ := by
  have c1 : ¬ (b0 + hdr = 0) := by omega
  simp [os_free, c1, split_at, dangling, coalesce_blocks, coalesce_from]

theorem reuse_step4 (hdr b0 m : Nat) (h1 : hdr ≤ 1024) :
    ∃ s4, os_malloc hdr ⟨[⟨b0, 104, Status.STATUS_FREE⟩,
              ⟨b0 + hdr + 104, 200, Status.STATUS_ALLOC⟩,
              ⟨b0 + hdr + 104 + hdr + 200, 130768 - 3 * hdr, Status.STATUS_FREE⟩],
             [], b0 + 131072, true⟩ 50 m = some (s4, b0 + hdr) ∧
      s4.brk = b0 + 131072 ∧ s4.maps = [] := by
  have e1 : align8 50 = 56 := by decide
  have c1 : 56 ≤ 130768 - 3 * hdr := by omega
  have c2 : ¬ (130768 - 3 * hdr < 104) := by omega
  exact os_malloc_best_result hdr _ 50 m 0 ⟨b0, 104, Status.STATUS_FREE⟩ (by decide)
    (by simp [dangling])
    (by simp [e1, c1, c2, coalesce_blocks, coalesce_from, find_best])

/-- C2: best fit.  For every header size, every state whose block sizes are machine words and
whose list has no unmapped entry, and every `size > 0`: if after coalescing some
`STATUS_FREE` block has capacity at least `size` rounded up to a multiple of 8, then
`os_malloc` returns the payload pointer (header address plus header size) of a free block
`best` of the coalesced list that fits, is no larger than any other free block that fits and
comes first among those of its size; the program break and the mappings are unchanged.
In particular, in a fresh process (header size at most 1024), after `os_malloc(100)`,
`os_malloc(200)` and `os_free` of the first pointer, `os_malloc(50)` returns the first
pointer again and moves neither the break nor the mappings. -/
theorem C2_best_fit_reuse (hdr : Nat) :
    (∀ (s : State) (size m : Nat), 0 < size → (∀ b ∈ s.head, b.size < WORD) →
      s.head.any (dangling s.maps) = false →
      (∃ c ∈ coalesce_blocks hdr s.head,
        c.status = Status.STATUS_FREE ∧ roundUp8 size ≤ c.size) →
      ∃ (i : Nat) (best : block_meta) (s1 : State),
        (coalesce_blocks hdr s.head)[i]? = some best ∧
        best.status = Status.STATUS_FREE ∧ roundUp8 size ≤ best.size ∧
        (∀ (k : Nat) (c : block_meta), (coalesce_blocks hdr s.head)[k]? = some c →
          c.status = Status.STATUS_FREE → roundUp8 size ≤ c.size →
          best.size ≤ c.size ∧ (c.size = best.size → i ≤ k)) ∧
        os_malloc hdr s size m = some (s1, best.addr + hdr) ∧
        s1.brk = s.brk ∧ s1.maps = s.maps) ∧
    (∀ (b0 m1 m2 m3 : Nat), 0 < hdr → hdr ≤ 1024 → b0 + 131072 < WORD →
      ∃ (s1 s2 s3 s4 : State) (p2 : Nat),
        os_malloc hdr (init b0) 100 m1 = some (s1, b0 + hdr) ∧
        os_malloc hdr s1 200 m2 = some (s2, p2) ∧
        os_free hdr s2 (b0 + hdr) = some s3 ∧
        os_malloc hdr s3 50 m3 = some (s4, b0 + hdr) ∧
        s4.brk = s3.brk ∧ s4.maps = s3.maps) := by
  refine ⟨fun s size m hpos hwords hlive hfit =>
    os_malloc_best_fit hdr s size m hpos hwords hlive hfit, ?_⟩
  intro b0 m1 m2 m3 h0 h1 hb
  obtain ⟨s4, h4, hbrk, hmaps⟩ := reuse_step4 hdr b0 m3 h1
  exact ⟨_, _, _, s4, _, reuse_step1 hdr b0 m1 h1 hb, reuse_step2 hdr b0 m2 h1,
    reuse_step3 hdr b0 h0, h4, hbrk, hmaps⟩

/-- C2 with a 32-byte header: the general part on the list left by malloc(100), malloc(200),
free(first), and the four calls from the fresh state with break 4096. -/
theorem C2_witness :
    ((0 < 50 ∧
      (∀ b ∈ (⟨[⟨4096, 104, Status.STATUS_FREE⟩, ⟨4232, 200, Status.STATUS_ALLOC⟩,
          ⟨4464, 130672, Status.STATUS_FREE⟩], [], 135168, true⟩ : State).head,
        b.size < WORD) ∧
      (⟨[⟨4096, 104, Status.STATUS_FREE⟩, ⟨4232, 200, Status.STATUS_ALLOC⟩,
          ⟨4464, 130672, Status.STATUS_FREE⟩], [], 135168, true⟩ : State).head.any
        (dangling []) = false ∧
      (∃ c ∈ coalesce_blocks 32 [⟨4096, 104, Status.STATUS_FREE⟩,
          ⟨4232, 200, Status.STATUS_ALLOC⟩, ⟨4464, 130672, Status.STATUS_FREE⟩],
        c.status = Status.STATUS_FREE ∧ roundUp8 50 ≤ c.size)) ∧
     ∃ (i : Nat) (best : block_meta) (s1 : State),
        (coalesce_blocks 32 [⟨4096, 104, Status.STATUS_FREE⟩,
          ⟨4232, 200, Status.STATUS_ALLOC⟩, ⟨4464, 130672, Status.STATUS_FREE⟩])[i]? =
          some best ∧
        best.status = Status.STATUS_FREE ∧ roundUp8 50 ≤ best.size ∧
        (∀ (k : Nat) (c : block_meta), (coalesce_blocks 32 [⟨4096, 104, Status.STATUS_FREE⟩,
          ⟨4232, 200, Status.STATUS_ALLOC⟩, ⟨4464, 130672, Status.STATUS_FREE⟩])[k]? = some c →
          c.status = Status.STATUS_FREE → roundUp8 50 ≤ c.size →
          best.size ≤ c.size ∧ (c.size = best.size → i ≤ k)) ∧
        os_malloc 32 ⟨[⟨4096, 104, Status.STATUS_FREE⟩, ⟨4232, 200, Status.STATUS_ALLOC⟩,
          ⟨4464, 130672, Status.STATUS_FREE⟩], [], 135168, true⟩ 50 0 =
          some (s1, best.addr + 32) ∧
        s1.brk = 135168 ∧ s1.maps = []) ∧
    ((0 < 32 ∧ 32 ≤ 1024 ∧ 4096 + 131072 < WORD) ∧
     ∃ (s1 s2 s3 s4 : State) (p2 : Nat),
        os_malloc 32 (init 4096) 100 0 = some (s1, 4096 + 32) ∧
        os_malloc 32 s1 200 0 = some (s2, p2) ∧
        os_free 32 s2 (4096 + 32) = some s3 ∧
        os_malloc 32 s3 50 0 = some (s4, 4096 + 32) ∧
        s4.brk = s3.brk ∧ s4.maps = s3.maps) :=
  ⟨⟨⟨by decide, by decide, by decide, by decide⟩,
    (C2_best_fit_reuse 32).1
      ⟨[⟨4096, 104, Status.STATUS_FREE⟩, ⟨4232, 200, Status.STATUS_ALLOC⟩,
          ⟨4464, 130672, Status.STATUS_FREE⟩], [], 135168, true⟩ 50 0
      (by decide) (by decide) (by decide) (by decide)⟩,
   ⟨⟨by decide, by decide, by decide⟩,
    (C2_best_fit_reuse 32).2 4096 0 0 0 (by decide) (by decide) (by decide)⟩⟩

/-! ## Inversion and forward rules for os_malloc -/

theorem find_best_eq_none (size : Nat) (l : List block_meta)
    (h : ∀ c ∈ l, ¬(c.status = Status.STATUS_FREE ∧ size ≤ c.size)) :
    find_best size l 0 none = none := by
  rcases find_best_none size l 0 with ⟨h1, _⟩ | ⟨r, _, _, h2, h3, h4, _⟩
  · exact h1
  · have hmem : r.2 ∈ l := List.getElem?_mem h2
    exact absurd ⟨h3, h4⟩ (h r.2 hmem)

theorem find_best_none_imp (size : Nat) (l : List block_meta)
    (h : find_best size l 0 none = none) :
    ∀ c ∈ l, ¬(c.status = Status.STATUS_FREE ∧ size ≤ c.size) := by
  rcases find_best_none size l 0 with ⟨_, h2⟩ | ⟨r, hr, _⟩
  · exact h2
  · rw [hr] at h; cases h

/-- Every way `os_malloc` can return, with `r` the aligned size and `L` the coalesced list. -/
theorem os_malloc_body_cases (hdr : Nat) (retry : State → Nat → Nat → Option (State × Nat))
    (s : State) (size m : Nat) (s1 : State) (p : Nat) (hs : size ≠ 0)
    (h : os_malloc_body hdr retry s size m = some (s1, p)) :
    s.head.any (dangling s.maps) = false ∧
    ((∃ i best, find_best (align8 size) (coalesce_blocks hdr s.head) 0 none = some (i, best) ∧
        (s1, p) = malloc_best hdr s (coalesce_blocks hdr s.head) (align8 size) i best) ∨
     (find_best (align8 size) (coalesce_blocks hdr s.head) 0 none = none ∧
      ∃ last brk1, (coalesce_blocks hdr s.head).getLast? = some last ∧
        last.status = Status.STATUS_FREE ∧
        sbrk s.brk (wsub (align8 size) last.size) = some brk1 ∧
        s1 = { s with
          head := (coalesce_blocks hdr s.head).dropLast ++
            [{ last with size := wadd last.size (wsub (align8 size) last.size),
                         status := Status.STATUS_ALLOC }],
          brk := brk1 } ∧
        p = last.addr + hdr) ∨
     (find_best (align8 size) (coalesce_blocks hdr s.head) 0 none = none ∧
      (∀ last, (coalesce_blocks hdr s.head).getLast? = some last →
        last.status ≠ Status.STATUS_FREE) ∧
      ((align8 size < MMAP_THRESHOLD ∧ s.preallocated = false ∧
        ∃ brk1, sbrk s.brk HEAP_PREALLOC_SIZE = some brk1 ∧
          retry { s with head := [⟨s.brk, wsub HEAP_PREALLOC_SIZE hdr, Status.STATUS_FREE⟩],
                         brk := brk1, preallocated := true } (align8 size) m = some (s1, p)) ∨
       (align8 size < MMAP_THRESHOLD ∧ s.preallocated = true ∧
        ∃ brk1, sbrk s.brk (wadd (align8 size) hdr) = some brk1 ∧
          (s1, p) = malloc_append hdr { s with brk := brk1 } (coalesce_blocks hdr s.head)
            (align8 size) s.brk) ∨
       (MMAP_THRESHOLD ≤ align8 size ∧
        ∃ maps1, mmap s.maps m (wadd (align8 size) hdr) = some maps1 ∧
          (s1, p) = malloc_append hdr { s with maps := maps1 } (coalesce_blocks hdr s.head)
            (align8 size) m)))) := by
  unfold os_malloc_body at h
  rw [if_neg hs] at h
  dsimp only at h
  split at h
  · cases h
  · rename_i hlive
    refine ⟨by simpa using hlive, ?_⟩
    split at h
    · rename_i i best hbest
      left
      simp only [Option.some.injEq] at h
      exact ⟨i, best, hbest, h.symm⟩
    · rename_i hnone
      right
      split at h
      · rename_i last hlast
        left
        rw [Option.filter_eq_some] at hlast
        split at h
        · cases h
        · rename_i brk1 hbrk
          simp only [Option.some.injEq, Prod.mk.injEq] at h
          exact ⟨hnone, last, brk1, hlast.1, by simpa using hlast.2, hbrk, h.1.symm, h.2.symm⟩
      · rename_i hlast
        right
        refine ⟨hnone, ?_, ?_⟩
        · intro last hl hfree
          have : Option.filter (fun b => decide (b.status = Status.STATUS_FREE))
              (coalesce_blocks hdr s.head).getLast? = some last := by
            rw [Option.filter_eq_some]; exact ⟨hl, by simpa using hfree⟩
          rw [hlast] at this; cases this
        · split at h
          · rename_i hlt
            split at h
            · rename_i hpre
              left
              split at h
              · cases h
              · rename_i brk1 hbrk
                exact ⟨hlt, hpre, brk1, hbrk, h⟩
            · rename_i hpre
              right; left
              split at h
              · cases h
              · rename_i brk1 hbrk
                simp only [Option.some.injEq] at h
                exact ⟨hlt, by simpa using hpre, brk1, hbrk, h.symm⟩
          · rename_i hge
            right; right
            split at h
            · cases h
            · rename_i maps1 hmaps
              simp only [Option.some.injEq] at h
              exact ⟨Nat.le_of_not_lt hge, maps1, hmaps, h.symm⟩

theorem os_malloc_body_mmap (hdr : Nat) (retry : State → Nat → Nat → Option (State × Nat))
    (s : State) (size m : Nat) (maps1 : List (Nat × Nat)) (hs : size ≠ 0)
    (hlive : s.head.any (dangling s.maps) = false)
    (hnone : find_best (align8 size) (coalesce_blocks hdr s.head) 0 none = none)
    (hlast : ∀ last, (coalesce_blocks hdr s.head).getLast? = some last →
        last.status ≠ Status.STATUS_FREE)
    (hthr : MMAP_THRESHOLD ≤ align8 size)
    (hmap : mmap s.maps m (wadd (align8 size) hdr) = some maps1) :
    os_malloc_body hdr retry s size m =
      some (malloc_append hdr { s with maps := maps1 } (coalesce_blocks hdr s.head)
        (align8 size) m) := by
  have hf : Option.filter (fun b => decide (b.status = Status.STATUS_FREE))
      (coalesce_blocks hdr s.head).getLast? = none := by
    cases hl : (coalesce_blocks hdr s.head).getLast? with
    | none => rfl
    | some last => simp [Option.filter, hlast last hl]
  unfold os_malloc_body
  rw [if_neg hs]
  dsimp only
  rw [hlive, hnone]
  simp only [Bool.false_eq_true, if_false]
  rw [hf]
  simp only [Nat.not_lt.mpr hthr, if_false, hmap]

/-! ## Looking a header up by address -/

theorem split_at_append (a : Nat) (pre post : List block_meta) (x : block_meta)
    (hpre : ∀ y ∈ pre, y.addr ≠ a) (hx : x.addr = a) :
    split_at a (pre ++ x :: post) = some (pre, x, post) := by
  induction pre with
  | nil => simp [split_at, hx]
  | cons y pre ih =>
    have hy : y.addr ≠ a := hpre y (List.mem_cons_self _ _)
    have := ih (fun z hz => hpre z (List.mem_cons_of_mem _ hz))
    simp [split_at, hy, this]

theorem coalesce_from_addr (hdr : Nat) (rest : List block_meta) :
    ∀ (b : block_meta), ∀ c ∈ coalesce_from hdr b rest,
      ∃ x ∈ b :: rest, x.addr = c.addr ∧ x.status = c.status := by
  induction rest with
  | nil =>
    intro b c hc
    simp only [coalesce_from, List.mem_singleton] at hc
    subst hc; exact ⟨c, List.mem_cons_self _ _, rfl, rfl⟩
  | cons n rest ih =>
    intro b c hc
    by_cases h : b.status = Status.STATUS_FREE ∧ n.status = Status.STATUS_FREE
    · simp only [coalesce_from, h, and_self, if_true] at hc
      obtain ⟨x, hx, h1, h2⟩ := ih _ c hc
      rcases List.mem_cons.mp hx with e | e
      · subst e
        exact ⟨b, List.mem_cons_self _ _, h1, h.1.trans h2⟩
      · exact ⟨x, List.mem_cons_of_mem _ (List.mem_cons_of_mem _ e), h1, h2⟩
    · simp only [coalesce_from, h, if_false, List.mem_cons] at hc
      rcases hc with hc | hc
      · subst hc; exact ⟨c, List.mem_cons_self _ _, rfl, rfl⟩
      · obtain ⟨x, hx, h1, h2⟩ := ih n c hc
        exact ⟨x, List.mem_cons_of_mem _ hx, h1, h2⟩

theorem coalesce_blocks_addr (hdr : Nat) (l : List block_meta) :
    ∀ c ∈ coalesce_blocks hdr l, ∃ x ∈ l, x.addr = c.addr ∧ x.status = c.status := by
  cases l with
  | nil => intro c hc; simp [coalesce_blocks] at hc
  | cons b rest => exact coalesce_from_addr hdr rest b

theorem mapped_live_munmap (maps : List (Nat × Nat)) (a : Nat) :
    mapped_live (munmap maps a) a = false := by
  unfold mapped_live munmap
  rw [List.any_eq_false]
  intro e he
  simp only [List.mem_filter, bne_iff_ne, ne_eq] at he
  simpa using he.2

/-! ## Requests at or above the mapping threshold -/

/-- C5 (as amended): for every state without unmapped list entries and every `size > 0`
whose value rounded up to a multiple of 8, `r`, is at least `MMAP_THRESHOLD` (with
`r + hdr` a machine word): if after coalescing no `STATUS_FREE` block has capacity at least
`r` and the last block of the list is not `STATUS_FREE`, then `os_malloc` maps `r + hdr`
bytes at the address `m` the kernel returns, leaves the program break alone, appends a
`STATUS_MAPPED` block of size `r` to the coalesced list and returns `m + hdr`; and if no
header of the list was stored at `m` before, `os_free` of that pointer returns and no
mapping based at `m` is live afterwards. -/
theorem C5_mapping_when_no_block_fits (hdr : Nat) (s : State) (size m : Nat)
    (hhdr : 0 < hdr) (hpos : 0 < size) (hword : roundUp8 size + hdr < WORD)
    (hthr : MMAP_THRESHOLD ≤ roundUp8 size)
    (hlive : s.head.any (dangling s.maps) = false)
    (hnofit : ∀ c ∈ coalesce_blocks hdr s.head,
      ¬(c.status = Status.STATUS_FREE ∧ roundUp8 size ≤ c.size))
    (hlast : ∀ last, (coalesce_blocks hdr s.head).getLast? = some last →
      last.status ≠ Status.STATUS_FREE)
    (hfresh : ∀ b ∈ s.head, b.addr ≠ m) :
    ∃ s1 s2 : State,
      os_malloc hdr s size m = some (s1, m + hdr) ∧
      s1.head = coalesce_blocks hdr s.head ++ [⟨m, roundUp8 size, Status.STATUS_MAPPED⟩] ∧
      s1.maps = (m, roundUp8 size + hdr) :: s.maps ∧
      s1.brk = s.brk ∧
      os_free hdr s1 (m + hdr) = some s2 ∧
      mapped_live s2.maps m = false := by
  have hsz : size + 7 < WORD := by
    unfold roundUp8 at hword
    unfold WORD at hword ⊢
    omega
  have ha := align8_eq_roundUp8 size hsz
  have hwa : wadd (roundUp8 size) hdr = roundUp8 size + hdr := wadd_eq _ _ hword
  have hmap : mmap s.maps m (wadd (align8 size) hdr) =
      some ((m, roundUp8 size + hdr) :: s.maps) := by
    rw [ha, hwa]
    unfold mmap
    rw [if_neg (by omega)]
  have hm := os_malloc_body_mmap hdr (os_malloc_body hdr (fun _ _ _ => none)) s size m _
    (Nat.ne_of_gt hpos) hlive (find_best_eq_none _ _ (by rw [ha]; exact hnofit)) hlast
    (by rw [ha]; exact hthr) hmap
  have hpre : ∀ y ∈ coalesce_blocks hdr s.head, y.addr ≠ m := by
    intro y hy
    obtain ⟨x, hx, h1, _⟩ := coalesce_blocks_addr hdr s.head y hy
    rw [← h1]; exact hfresh x hx
  have hsplit := split_at_append m (coalesce_blocks hdr s.head) []
    ⟨m, roundUp8 size, Status.STATUS_MAPPED⟩ hpre rfl
  refine ⟨⟨coalesce_blocks hdr s.head ++ [⟨m, roundUp8 size, Status.STATUS_MAPPED⟩],
      (m, roundUp8 size + hdr) :: s.maps, s.brk, s.preallocated⟩,
    ⟨coalesce_blocks hdr s.head ++ [⟨m, roundUp8 size, Status.STATUS_MAPPED⟩],
      munmap ((m, roundUp8 size + hdr) :: s.maps) m, s.brk, s.preallocated⟩,
    ?_, rfl, rfl, rfl, ?_, mapped_live_munmap _ _⟩
  · rw [os_malloc_unfold, hm]
    simp [malloc_append, ha, hthr]
  · have h1 : ¬ (m + hdr = 0) := by omega
    simp [os_free, h1, hsplit, dangling, mapped_live]

/-- C5 from the fresh state with a 32-byte header: a request of 200 KiB. -/
theorem C5_witness :
    (0 < 32 ∧ 0 < 204800 ∧ roundUp8 204800 + 32 < WORD ∧ MMAP_THRESHOLD ≤ roundUp8 204800 ∧
      (init 4096).head.any (dangling (init 4096).maps) = false ∧
      (∀ c ∈ coalesce_blocks 32 (init 4096).head,
        ¬(c.status = Status.STATUS_FREE ∧ roundUp8 204800 ≤ c.size)) ∧
      (∀ last, (coalesce_blocks 32 (init 4096).head).getLast? = some last →
        last.status ≠ Status.STATUS_FREE) ∧
      (∀ b ∈ (init 4096).head, b.addr ≠ 1048576)) ∧
    ∃ s1 s2 : State,
      os_malloc 32 (init 4096) 204800 1048576 = some (s1, 1048576 + 32) ∧
      s1.head = coalesce_blocks 32 (init 4096).head ++
        [⟨1048576, roundUp8 204800, Status.STATUS_MAPPED⟩] ∧
      s1.maps = (1048576, roundUp8 204800 + 32) :: (init 4096).maps ∧
      s1.brk = (init 4096).brk ∧
      os_free 32 s1 (1048576 + 32) = some s2 ∧
      mapped_live s2.maps 1048576 = false :=
  ⟨⟨by decide, by decide, by decide, by decide, by decide, by decide,
     (fun last h => by cases h), by decide⟩,
   C5_mapping_when_no_block_fits 32 (init 4096) 204800 1048576 (by decide) (by decide)
     (by decide) (by decide) (by decide) (by decide) (fun last h => by cases h) (by decide)⟩

/-- C5 fails as stated: after `os_malloc(8)` in a fresh process the list ends with the free
rest of the preallocated heap, and `os_malloc(204800)` (200 KiB, above the threshold) grows
that block with `sbrk`: the break moves from 135168 to 208968, no mapping is made, and the
returned block is `STATUS_ALLOC`. -/
theorem C5_counterexample :
    MMAP_THRESHOLD ≤ roundUp8 204800 ∧
    os_malloc 32 (init 4096) 8 0 =
      some (⟨[⟨4096, 8, Status.STATUS_ALLOC⟩, ⟨4136, 131000, Status.STATUS_FREE⟩],
             [], 135168, true⟩, 4128) ∧
    os_malloc 32 ⟨[⟨4096, 8, Status.STATUS_ALLOC⟩, ⟨4136, 131000, Status.STATUS_FREE⟩],
             [], 135168, true⟩ 204800 1048576 =
      some (⟨[⟨4096, 8, Status.STATUS_ALLOC⟩, ⟨4136, 204800, Status.STATUS_ALLOC⟩],
             [], 208968, true⟩, 4168) := by
  refine ⟨by decide, by decide, by decide⟩

/-! ## A request that wraps around when aligned -/

/-- C3, the code at the failing input: with a 32-byte header, after `os_malloc(8)` in a fresh
process, the request `2 ^ 64 - 1` (a machine word) is aligned to `0` by `(size + 7) & ~7`;
best fit then selects the free rest of the heap and splits off a block of recorded size 0,
whose payload pointer 4168 is returned although the request was for `2 ^ 64 - 1` bytes. -/
theorem C3_wrapped_request_gets_empty_block :
    18446744073709551615 < WORD ∧
    align8 18446744073709551615 = 0 ∧
    os_malloc 32 (init 4096) 8 0 =
      some (⟨[⟨4096, 8, Status.STATUS_ALLOC⟩, ⟨4136, 131000, Status.STATUS_FREE⟩],
             [], 135168, true⟩, 4128) ∧
    os_malloc 32 ⟨[⟨4096, 8, Status.STATUS_ALLOC⟩, ⟨4136, 131000, Status.STATUS_FREE⟩],
             [], 135168, true⟩ 18446744073709551615 0 =
      some (⟨[⟨4096, 8, Status.STATUS_ALLOC⟩, ⟨4136, 0, Status.STATUS_ALLOC⟩,
              ⟨4168, 130968, Status.STATUS_FREE⟩], [], 135168, true⟩, 4136 + 32) := by
  refine ⟨by decide, by decide, by decide, by decide⟩

/-! ## Releasing a mapped block -/

/-- C9, the code at the failing input: with a 32-byte header, in a fresh process
`os_malloc(204800)` maps a block at the address 1048576 the kernel returns and links it into
the list; `os_free` of its pointer removes the mapping but leaves the block list as it was,
the unmapped header still being its only entry; the next `os_malloc(8)` reads that header
and does not return. -/
theorem C9_unmapped_block_stays_linked :
    os_malloc 32 (init 4096) 204800 1048576 =
      some (⟨[⟨1048576, 204800, Status.STATUS_MAPPED⟩], [(1048576, 204832)], 4096, false⟩,
            1048608) ∧
    os_free 32 ⟨[⟨1048576, 204800, Status.STATUS_MAPPED⟩], [(1048576, 204832)], 4096, false⟩
        1048608 =
      some ⟨[⟨1048576, 204800, Status.STATUS_MAPPED⟩], [], 4096, false⟩ ∧
    os_malloc 32 ⟨[⟨1048576, 204800, Status.STATUS_MAPPED⟩], [], 4096, false⟩ 8 0 = none := by
  refine ⟨by decide, by decide, by decide⟩

/-! ## Resizing to a size that fits -/

/-- C6 (as amended): for every pointer `ptr` whose header is an entry of the block list with
status `STATUS_ALLOC` (a pointer returned by the allocator and not released, not backed by a
mapping), in a list without unmapped entries, and for every `n > 0` whose value rounded up to
a multiple of 8 is at most the block's recorded size (a machine word), `os_realloc(ptr, n)`
returns `ptr` itself. -/
theorem C6_resize_within_capacity (hdr : Nat) (s : State) (ptr n m : Nat)
    (pre post : List block_meta) (block : block_meta)
    (hptr : hdr < ptr)
    (hblock : split_at (ptr - hdr) s.head = some (pre, block, post))
    (hstatus : block.status = Status.STATUS_ALLOC)
    (hword : block.size < WORD)
    (hlive : s.head.any (dangling s.maps) = false)
    (hn : 0 < n) (hfit : roundUp8 n ≤ block.size) :
    ∃ s1, os_realloc hdr s ptr n m = some (s1, ptr) := by
  have hsz : n + 7 < WORD := by
    unfold roundUp8 at hfit
    unfold WORD at hword ⊢
    omega
  have ha := align8_eq_roundUp8 n hsz
  obtain ⟨e, _, _⟩ := split_at_eq _ _ _ _ _ hblock
  have hd : dangling s.maps block = false := by simp [dangling, hstatus]
  have hpost : post.head?.any (dangling s.maps) = false := by
    cases post with
    | nil => rfl
    | cons y rest =>
      rw [List.any_eq_false] at hlive
      have hy : y ∈ s.head := by rw [e]; simp
      have := hlive y hy
      simpa using this
  have h1 : ¬ (ptr = 0) := by omega
  have h2 : ¬ (n = 0) := by omega
  have h3 : ¬ (ptr < hdr) := by omega
  have h4 : ¬ (ptr = hdr) := by omega
  unfold os_realloc
  rw [if_neg h1, if_neg h2, if_neg h3, if_neg h4, hblock]
  dsimp only
  have hnf : ¬ block.status = Status.STATUS_FREE := by rw [hstatus]; decide
  have hnm : ¬ block.status = Status.STATUS_MAPPED := by rw [hstatus]; decide
  rw [hd, ha, if_neg (by decide), if_neg hnf, if_neg hnm, if_pos hfit]
  by_cases hc : wadd (wadd (roundUp8 n) hdr) 8 ≤ block.size
  · rw [if_pos hc, hpost, if_neg (by decide)]
    exact ⟨_, rfl⟩
  · rw [if_neg hc]
    exact ⟨_, rfl⟩

/-- C6 on the block returned by `os_malloc(100)` in a fresh process, resized to 60. -/
theorem C6_witness :
    (32 < 4128 ∧
     split_at (4128 - 32)
       (⟨[⟨4096, 104, Status.STATUS_ALLOC⟩, ⟨4232, 130904, Status.STATUS_FREE⟩],
         [], 135168, true⟩ : State).head =
       some ([], ⟨4096, 104, Status.STATUS_ALLOC⟩, [⟨4232, 130904, Status.STATUS_FREE⟩]) ∧
     (⟨4096, 104, Status.STATUS_ALLOC⟩ : block_meta).status = Status.STATUS_ALLOC ∧
     (⟨4096, 104, Status.STATUS_ALLOC⟩ : block_meta).size < WORD ∧
     (⟨[⟨4096, 104, Status.STATUS_ALLOC⟩, ⟨4232, 130904, Status.STATUS_FREE⟩],
         [], 135168, true⟩ : State).head.any (dangling []) = false ∧
     0 < 60 ∧ roundUp8 60 ≤ (⟨4096, 104, Status.STATUS_ALLOC⟩ : block_meta).size) ∧
    ∃ s1, os_realloc 32 ⟨[⟨4096, 104, Status.STATUS_ALLOC⟩, ⟨4232, 130904, Status.STATUS_FREE⟩],
         [], 135168, true⟩ 4128 60 0 = some (s1, 4128) :=
  ⟨⟨by decide, by decide, by decide, by decide, by decide, by decide, by decide⟩,
   C6_resize_within_capacity 32
     ⟨[⟨4096, 104, Status.STATUS_ALLOC⟩, ⟨4232, 130904, Status.STATUS_FREE⟩], [], 135168, true⟩
     4128 60 0 [] [⟨4232, 130904, Status.STATUS_FREE⟩] ⟨4096, 104, Status.STATUS_ALLOC⟩
     (by decide) (by decide) (by decide) (by decide) (by decide) (by decide) (by decide)⟩

/-- C6 fails as stated: with a 32-byte header, the pointer 1048608 returned by
`os_malloc(204800)` in a fresh process designates a `STATUS_MAPPED` block of capacity 204800;
`os_realloc(1048608, 150000)` asks for less than that capacity, yet maps a new region (at the
address 2097152 the kernel returns), unmaps the old one and returns the new pointer. -/
theorem C6_counterexample :
    os_malloc 32 (init 4096) 204800 1048576 =
      some (⟨[⟨1048576, 204800, Status.STATUS_MAPPED⟩], [(1048576, 204832)], 4096, false⟩,
            1048608) ∧
    0 < 150000 ∧ roundUp8 150000 ≤ 204800 ∧
    os_realloc 32 ⟨[⟨1048576, 204800, Status.STATUS_MAPPED⟩], [(1048576, 204832)], 4096, false⟩
        1048608 150000 2097152 =
      some (⟨[⟨1048576, 204800, Status.STATUS_MAPPED⟩], [(2097152, 150032)], 4096, false⟩,
            2097184) ∧
    2097184 ≠ 1048608 := by
  refine ⟨by decide, by decide, by decide, by decide, by decide⟩

/-! ## Releasing a block and allocating the same or a smaller size again -/

theorem coalesce_from_addr_sublist (hdr : Nat) (rest : List block_meta) :
    ∀ b : block_meta, List.Sublist ((coalesce_from hdr b rest).map (fun x => x.addr))
      ((b :: rest).map (fun x => x.addr)) := by
  induction rest with
  | nil => intro b; exact List.Sublist.refl _
  | cons n rest ih =>
    intro b
    by_cases h : b.status = Status.STATUS_FREE ∧ n.status = Status.STATUS_FREE
    · simp only [coalesce_from, h, and_self, if_true]
      have := ih { b with size := wadd b.size (wadd n.size hdr) }
      simp only [List.map_cons] at this ⊢
      rw [h.1] at this
      exact this.trans (List.Sublist.cons₂ _ (List.sublist_cons_self _ _))
    · simp only [coalesce_from, h, if_false, List.map_cons]
      exact List.Sublist.cons₂ _ (by simpa using ih n)

theorem coalesce_blocks_nodup (hdr : Nat) (l : List block_meta)
    (h : (l.map (fun x => x.addr)).Nodup) :
    ((coalesce_blocks hdr l).map (fun x => x.addr)).Nodup := by
  cases l with
  | nil => simp [coalesce_blocks]
  | cons b rest => exact List.Nodup.sublist (coalesce_from_addr_sublist hdr rest b) h

theorem coalesce_blocks_live (hdr : Nat) (maps : List (Nat × Nat)) (l : List block_meta)
    (h : ∀ b ∈ l, dangling maps b = false) :
    ∀ c ∈ coalesce_blocks hdr l, dangling maps c = false := by
  intro c hc
  obtain ⟨x, hx, h1, h2⟩ := coalesce_blocks_addr hdr l c hc
  have := h x hx
  unfold dangling at this ⊢
  rw [← h1, ← h2]; exact this

theorem coalesce_from_append (hdr : Nat) (pre : List block_meta) :
    ∀ (x z : block_meta) (rest : List block_meta), NoAdjFree (x :: pre ++ [z]) →
      coalesce_from hdr x (pre ++ z :: rest) = (x :: pre) ++ coalesce_from hdr z rest := by
  induction pre with
  | nil =>
    intro x z rest h
    have h1 : ¬(x.status = Status.STATUS_FREE ∧ z.status = Status.STATUS_FREE) :=
      (List.chain'_cons.mp h).1
    simp [coalesce_from, h1]
  | cons y pre ih =>
    intro x z rest h
    have h1 := List.chain'_cons.mp h
    have h2 := ih y z rest h1.2
    simp only [List.cons_append, coalesce_from, h1.1, if_false]
    exact congrArg (fun t => x :: t) h2

theorem coalesce_blocks_append (hdr : Nat) (pre : List block_meta) (z : block_meta) (rest : List block_meta)
    (h : NoAdjFree (pre ++ [z])) :
    coalesce_blocks hdr (pre ++ z :: rest) = pre ++ coalesce_from hdr z rest := by
  cases pre with
  | nil => rfl
  | cons x pre => exact coalesce_from_append hdr pre x z rest h

theorem noAdj_replace_same (pre post : List block_meta) (b c : block_meta)
    (h : NoAdjFree (pre ++ b :: post))
    (hc : c.status = Status.STATUS_FREE → b.status = Status.STATUS_FREE) :
    NoAdjFree (pre ++ c :: post) := by
  unfold NoAdjFree at h ⊢
  rw [List.chain'_split] at h ⊢
  obtain ⟨h1, h2⟩ := h
  rw [List.chain'_append] at h1 ⊢
  refine ⟨⟨h1.1, List.chain'_singleton c, ?_⟩, ?_⟩
  · intro x hx y hy
    simp only [List.head?_cons, Option.mem_def, Option.some.injEq] at hy
    subst hy
    intro hxy
    exact h1.2.2 x hx b (by simp) ⟨hxy.1, hc hxy.2⟩
  · rw [List.chain'_cons'] at h2 ⊢
    exact ⟨fun y hy hxy => h2.1 y hy ⟨hc hxy.1, hxy.2⟩, h2.2⟩

theorem noAdj_append_last (l : List block_meta) (c : block_meta) (h : NoAdjFree l)
    (hlast : ∀ last, l.getLast? = some last → last.status ≠ Status.STATUS_FREE) :
    NoAdjFree (l ++ [c]) := by
  unfold NoAdjFree at h ⊢
  rw [List.chain'_append]
  refine ⟨h, List.chain'_singleton c, ?_⟩
  intro x hx y _ hxy
  exact hlast x hx hxy.1

theorem find_best_append_last (size : Nat) (X : List block_meta) (z : block_meta)
    (hz : z.status = Status.STATUS_FREE ∧ size ≤ z.size) :
    ∀ i : Nat, (∀ c ∈ X, ¬(c.status = Status.STATUS_FREE ∧ size ≤ c.size)) →
      find_best size (X ++ [z]) i none = some (i + X.length, z) := by
  induction X with
  | nil => intro i _; simp [find_best, hz]
  | cons x X ih =>
    intro i h
    have hx := h x (List.mem_cons_self _ _)
    have := ih (i + 1) (fun c hc => h c (List.mem_cons_of_mem _ hc))
    simp only [List.cons_append, find_best, hx, if_false, List.length_cons]
    have e : i + (X.length + 1) = i + 1 + X.length := by omega
    rw [e]
    exact this

theorem os_free_heap (hdr : Nat) (s : State) (a : Nat) (pre post : List block_meta) (b : block_meta)
    (hhdr : 0 < hdr) (hsplit : split_at a s.head = some (pre, b, post))
    (hb : b.status ≠ Status.STATUS_MAPPED)
    (hlive : s.head.any (dangling s.maps) = false) :
    os_free hdr s (a + hdr) =
      some { s with head :=
        coalesce_blocks hdr (pre ++ { b with status := Status.STATUS_FREE } :: post) } := by
  have h1 : ¬ (a + hdr = 0) := by omega
  have h2 : ¬ (a + hdr < hdr) := by omega
  have hd : dangling s.maps b = false := by simp [dangling, hb]
  unfold os_free
  rw [if_neg h1, if_neg h2, Nat.add_sub_cancel, hsplit]
  dsimp only
  rw [hd, hlive, if_neg (by decide), if_neg hb, if_neg (by decide)]

theorem find_best_gap (r1 r : Nat) (l : List block_meta) (hle : r1 ≤ r)
    (hgap : ∀ c ∈ l, c.status = Status.STATUS_FREE → ¬(r1 ≤ c.size ∧ c.size < r)) :
    ∀ (i : Nat) (acc : Option (Nat × block_meta)),
      find_best r1 l i acc = find_best r l i acc := by
  induction l with
  | nil => intro i acc; rfl
  | cons x rest ih =>
    intro i acc
    have ih2 := ih (fun c hc => hgap c (List.mem_cons_of_mem _ hc))
    by_cases hc : x.status = Status.STATUS_FREE ∧ r ≤ x.size
    · have hc1 : x.status = Status.STATUS_FREE ∧ r1 ≤ x.size := ⟨hc.1, Nat.le_trans hle hc.2⟩
      cases acc with
      | none =>
        simp only [find_best, hc, hc1, and_self, if_true]
        exact ih2 _ _
      | some jb =>
        obtain ⟨j, bb⟩ := jb
        simp only [find_best, hc, hc1, and_self, if_true]
        split
        · exact ih2 _ _
        · exact ih2 _ _
    · have hc1 : ¬(x.status = Status.STATUS_FREE ∧ r1 ≤ x.size) := by
        intro h1
        have hg := hgap x (List.mem_cons_self _ _) h1.1
        exact hc ⟨h1.1, by omega⟩
      simp only [find_best, hc, hc1, if_false]
      exact ih2 _ _

theorem malloc_again (hdr : Nat) (s2 : State) (r m mm : Nat) (i : Nat) (b : block_meta)
    (hm : m ≠ 0) (ham : align8 m ≤ r)
    (hgap : ∀ c ∈ s2.head, c.status = Status.STATUS_FREE → ¬(align8 m ≤ c.size ∧ c.size < r))
    (hnoadj : NoAdjFree s2.head)
    (hlive : s2.head.any (dangling s2.maps) = false)
    (hbest : find_best r s2.head 0 none = some (i, b)) :
    ∃ s3, os_malloc hdr s2 m mm = some (s3, b.addr + hdr) := by
  obtain ⟨s3, h, _⟩ := os_malloc_best_result hdr s2 m mm i b hm hlive
    (by rw [coalesce_blocks_fixed hdr _ hnoadj, find_best_gap _ r _ ham hgap]; exact hbest)
  exact ⟨s3, h⟩

theorem any_dangling_false (maps : List (Nat × Nat)) (l : List block_meta) :
    l.any (dangling maps) = false ↔ ∀ b ∈ l, dangling maps b = false := by
  rw [List.any_eq_false]
  constructor
  · intro h b hb; simpa using h b hb
  · intro h b hb; simpa using h b hb

theorem roundtrip_best (hdr : Nat) (s : State) (r m mm i : Nat) (best : block_meta)
    (hhdr : 0 < hdr) (hh : hdr < 2 ^ 32) (hr : r < MMAP_THRESHOLD)
    (hm : m ≠ 0) (ham : align8 m ≤ r)
    (hnodup : (s.head.map (fun x => x.addr)).Nodup)
    (hwords : ∀ b ∈ s.head, b.size < WORD)
    (hlive : s.head.any (dangling s.maps) = false)
    (hbest : find_best r (coalesce_blocks hdr s.head) 0 none = some (i, best)) :
    ∃ s2,
      os_free hdr (malloc_best hdr s (coalesce_blocks hdr s.head) r i best).1
        (best.addr + hdr) = some s2 ∧
      ((∀ c ∈ s2.head, c.status = Status.STATUS_FREE → ¬(align8 m ≤ c.size ∧ c.size < r)) →
        ∃ s3, os_malloc hdr s2 m mm = some (s3, best.addr + hdr)) := by
  obtain ⟨hi, hbf, hbs⟩ := find_best_at _ _ _ _ hbest
  have hLn := coalesce_blocks_nodup hdr s.head hnodup
  have hLl := coalesce_blocks_live hdr s.maps s.head ((any_dangling_false _ _).mp hlive)
  have hLa := coalesce_blocks_noAdj hdr s.head
  have hbw := coalesce_blocks_size_lt hdr s.head hwords best (List.getElem?_mem hi)
  have e := getElem?_split _ i best hi
  generalize coalesce_blocks hdr s.head = L at *
  generalize hpre : L.take i = pre at e
  generalize hpost : L.drop (i + 1) = post at e
  have hrep : ∀ new, replace_at L i new = pre ++ new ++ post := by
    intro new; unfold replace_at; rw [hpre, hpost]
  subst e
  have hpa : ∀ y ∈ pre, y.addr ≠ best.addr := by
    intro y hy hya
    rw [List.map_append, List.map_cons, List.nodup_append] at hLn
    have hmem : y.addr ∈ pre.map (fun x => x.addr) := List.mem_map_of_mem _ hy
    exact hLn.2.2 hmem (by rw [hya]; exact List.mem_cons_self _ _)
  have hbeq : (⟨best.addr, best.size, Status.STATUS_FREE⟩ : block_meta) = best := by
    cases best; simp only [block_meta.mk.injEq, true_and]; exact hbf.symm
  have hW : WORD = 18446744073709551616 := by decide
  have hT : MMAP_THRESHOLD = 131072 := by decide
  have hsplitL := List.chain'_split.mp hLa
  by_cases hc : wadd (wadd r hdr) 8 ≤ best.size ∧ 8 ≤ wsub (wsub best.size r) hdr
  · -- the block was split
    have e1 : wadd (wadd r hdr) 8 = r + hdr + 8 := by
      rw [wadd_eq r hdr (by omega), wadd_eq _ 8 (by omega)]
    have hle : r + hdr + 8 ≤ best.size := by rw [← e1]; exact hc.1
    have e2 : wsub (wsub best.size r) hdr = best.size - r - hdr := by
      rw [wsub_eq _ r (by omega) hbw, wsub_eq _ hdr (by omega) (by omega)]
    have e3 : wadd r (wadd (best.size - r - hdr) hdr) = best.size := by
      rw [wadd_eq (best.size - r - hdr) hdr (by omega), wadd_eq _ _ (by omega)]; omega
    have hs1 : (malloc_best hdr s (pre ++ best :: post) r i best).1 =
        { s with head := pre ++ (⟨best.addr, r, Status.STATUS_ALLOC⟩ ::
          ⟨best.addr + hdr + r, best.size - r - hdr, Status.STATUS_FREE⟩ :: post) } := by
      unfold malloc_best
      dsimp only
      rw [if_pos hc, hrep, e2]
      simp
    rw [hs1]
    have hsp := split_at_append best.addr pre
      (⟨best.addr + hdr + r, best.size - r - hdr, Status.STATUS_FREE⟩ :: post)
      ⟨best.addr, r, Status.STATUS_ALLOC⟩ hpa rfl
    have hl1 : (pre ++ (⟨best.addr, r, Status.STATUS_ALLOC⟩ ::
          (⟨best.addr + hdr + r, best.size - r - hdr, Status.STATUS_FREE⟩ : block_meta) ::
            post)).any (dangling s.maps) = false := by
      rw [any_dangling_false]
      intro b hb
      simp only [List.mem_append, List.mem_cons] at hb
      rcases hb with hb | hb | hb | hb
      · exact hLl b (by simp [hb])
      · subst hb; simp [dangling]
      · subst hb; simp [dangling]
      · exact hLl b (by simp [hb])
    have hfree := os_free_heap hdr
      { s with head := pre ++ (⟨best.addr, r, Status.STATUS_ALLOC⟩ ::
          ⟨best.addr + hdr + r, best.size - r - hdr, Status.STATUS_FREE⟩ :: post) }
      best.addr pre _ _ hhdr hsp (by simp) hl1
    have hz : NoAdjFree (pre ++ [(⟨best.addr, r, Status.STATUS_FREE⟩ : block_meta)]) :=
      noAdj_replace_same pre [] best _ hsplitL.1 (fun _ => hbf)
    have hco : coalesce_blocks hdr (pre ++ (⟨best.addr, r, Status.STATUS_FREE⟩ ::
          (⟨best.addr + hdr + r, best.size - r - hdr, Status.STATUS_FREE⟩ : block_meta) :: post)) =
        pre ++ best :: post := by
      rw [coalesce_blocks_append hdr pre _ _ hz]
      simp only [coalesce_from, and_self, if_true, e3, hbeq]
      rw [coalesce_from_fixed hdr post best hsplitL.2]
    simp only [hco] at hfree
    exact ⟨_, hfree, fun hgap => malloc_again hdr
      { s with head := pre ++ best :: post } r m mm i best hm ham hgap hLa
      ((any_dangling_false _ _).mpr hLl) hbest⟩
  · -- the whole block was handed out
    have hs1 : (malloc_best hdr s (pre ++ best :: post) r i best).1 =
        { s with head := pre ++ (⟨best.addr, best.size, Status.STATUS_ALLOC⟩ :: post) } := by
      unfold malloc_best
      dsimp only
      rw [if_neg hc, hrep]
      simp
    rw [hs1]
    have hsp := split_at_append best.addr pre post
      ⟨best.addr, best.size, Status.STATUS_ALLOC⟩ hpa rfl
    have hl1 : (pre ++ ((⟨best.addr, best.size, Status.STATUS_ALLOC⟩ : block_meta) ::
            post)).any (dangling s.maps) = false := by
      rw [any_dangling_false]
      intro b hb
      simp only [List.mem_append, List.mem_cons] at hb
      rcases hb with hb | hb | hb
      · exact hLl b (by simp [hb])
      · subst hb; simp [dangling]
      · exact hLl b (by simp [hb])
    have hfree := os_free_heap hdr
      { s with head := pre ++ (⟨best.addr, best.size, Status.STATUS_ALLOC⟩ :: post) }
      best.addr pre _ _ hhdr hsp (by simp) hl1
    simp only [hbeq, coalesce_blocks_fixed hdr _ hLa] at hfree
    exact ⟨_, hfree, fun hgap => malloc_again hdr
      { s with head := pre ++ best :: post } r m mm i best hm ham hgap hLa
      ((any_dangling_false _ _).mpr hLl) hbest⟩

theorem roundtrip_tail (hdr : Nat) (s : State) (r m mm brk1 : Nat) (last : block_meta)
    (hhdr : 0 < hdr) (hr : r < MMAP_THRESHOLD)
    (hm : m ≠ 0) (ham : align8 m ≤ r)
    (hnodup : (s.head.map (fun x => x.addr)).Nodup)
    (hlive : s.head.any (dangling s.maps) = false)
    (hnone : find_best r (coalesce_blocks hdr s.head) 0 none = none)
    (hl : (coalesce_blocks hdr s.head).getLast? = some last)
    (hlf : last.status = Status.STATUS_FREE) :
    ∃ s2,
      os_free hdr { s with
          head := (coalesce_blocks hdr s.head).dropLast ++
            [{ last with size := wadd last.size (wsub r last.size),
                         status := Status.STATUS_ALLOC }],
          brk := brk1 } (last.addr + hdr) = some s2 ∧
      ((∀ c ∈ s2.head, c.status = Status.STATUS_FREE → ¬(align8 m ≤ c.size ∧ c.size < r)) →
        ∃ s3, os_malloc hdr s2 m mm = some (s3, last.addr + hdr)) := by
  have hLn := coalesce_blocks_nodup hdr s.head hnodup
  have hLl := coalesce_blocks_live hdr s.maps s.head ((any_dangling_false _ _).mp hlive)
  have hLa := coalesce_blocks_noAdj hdr s.head
  have hnf := find_best_none_imp _ _ hnone
  have e := getLast?_split _ last hl
  generalize coalesce_blocks hdr s.head = L at *
  generalize L.dropLast = X at *
  subst e
  have hW : WORD = 18446744073709551616 := by decide
  have hT : MMAP_THRESHOLD = 131072 := by decide
  have hlt : last.size < r := by
    have := hnf last (by simp)
    by_contra hcon
    exact this ⟨hlf, Nat.le_of_not_lt hcon⟩
  have e1 : wadd last.size (wsub r last.size) = r := by
    rw [wsub_eq r _ (by omega) (by omega), wadd_eq _ _ (by omega)]; omega
  rw [e1]
  have hpa : ∀ y ∈ X, y.addr ≠ last.addr := by
    intro y hy hya
    rw [List.map_append, List.nodup_append] at hLn
    have hmem : y.addr ∈ X.map (fun x => x.addr) := List.mem_map_of_mem _ hy
    exact hLn.2.2 hmem (by rw [hya]; simp)
  have hsp := split_at_append last.addr X [] ⟨last.addr, r, Status.STATUS_ALLOC⟩ hpa rfl
  have hl1 : (X ++ [(⟨last.addr, r, Status.STATUS_ALLOC⟩ : block_meta)]).any (dangling s.maps) =
      false := by
    rw [any_dangling_false]
    intro b hb
    simp only [List.mem_append, List.mem_singleton] at hb
    rcases hb with hb | hb
    · exact hLl b (by simp [hb])
    · subst hb; simp [dangling]
  have hfree := os_free_heap hdr
    { s with head := X ++ [⟨last.addr, r, Status.STATUS_ALLOC⟩], brk := brk1 }
    last.addr X [] _ hhdr hsp (by simp) hl1
  have hz : NoAdjFree (X ++ [(⟨last.addr, r, Status.STATUS_FREE⟩ : block_meta)]) :=
    noAdj_replace_same X [] last _ hLa (fun _ => hlf)
  simp only [coalesce_blocks_fixed hdr _ hz] at hfree
  have hl2 : (X ++ [(⟨last.addr, r, Status.STATUS_FREE⟩ : block_meta)]).any (dangling s.maps) =
      false := by
    rw [any_dangling_false]
    intro b hb
    simp only [List.mem_append, List.mem_singleton] at hb
    rcases hb with hb | hb
    · exact hLl b (by simp [hb])
    · subst hb; simp [dangling]
  have hfb := find_best_append_last r X ⟨last.addr, r, Status.STATUS_FREE⟩
    ⟨rfl, le_refl _⟩ 0 (fun c hc => hnf c (by simp [hc]))
  exact ⟨_, hfree, fun hgap => malloc_again hdr
    { s with head := X ++ [⟨last.addr, r, Status.STATUS_FREE⟩], brk := brk1 } r m mm
    (0 + X.length) ⟨last.addr, r, Status.STATUS_FREE⟩ hm ham hgap hz hl2 hfb⟩

theorem roundtrip_new (hdr : Nat) (s : State) (r m mm brk1 : Nat)
    (hhdr : 0 < hdr) (hr : r < MMAP_THRESHOLD)
    (hm : m ≠ 0) (ham : align8 m ≤ r)
    (hbrk : ∀ b ∈ s.head, b.addr ≠ s.brk)
    (hlive : s.head.any (dangling s.maps) = false)
    (hnone : find_best r (coalesce_blocks hdr s.head) 0 none = none)
    (hlast : ∀ last, (coalesce_blocks hdr s.head).getLast? = some last →
      last.status ≠ Status.STATUS_FREE) :
    ∃ s2,
      os_free hdr (malloc_append hdr { s with brk := brk1 } (coalesce_blocks hdr s.head)
        r s.brk).1 (s.brk + hdr) = some s2 ∧
      ((∀ c ∈ s2.head, c.status = Status.STATUS_FREE → ¬(align8 m ≤ c.size ∧ c.size < r)) →
        ∃ s3, os_malloc hdr s2 m mm = some (s3, s.brk + hdr)) := by
  have hLl := coalesce_blocks_live hdr s.maps s.head ((any_dangling_false _ _).mp hlive)
  have hLa := coalesce_blocks_noAdj hdr s.head
  have hnf := find_best_none_imp _ _ hnone
  have hpa : ∀ y ∈ coalesce_blocks hdr s.head, y.addr ≠ s.brk := by
    intro y hy
    obtain ⟨x, hx, h1, _⟩ := coalesce_blocks_addr hdr s.head y hy
    rw [← h1]; exact hbrk x hx
  generalize coalesce_blocks hdr s.head = L at *
  have hs1 : (malloc_append hdr { s with brk := brk1 } L r s.brk).1 =
      { s with head := L ++ [⟨s.brk, r, Status.STATUS_ALLOC⟩], brk := brk1 } := by
    simp [malloc_append, Nat.not_le.mpr hr]
  rw [hs1]
  have hsp := split_at_append s.brk L [] ⟨s.brk, r, Status.STATUS_ALLOC⟩ hpa rfl
  have hl1 : (L ++ [(⟨s.brk, r, Status.STATUS_ALLOC⟩ : block_meta)]).any (dangling s.maps) =
      false := by
    rw [any_dangling_false]
    intro b hb
    simp only [List.mem_append, List.mem_singleton] at hb
    rcases hb with hb | hb
    · exact hLl b hb
    · subst hb; simp [dangling]
  have hfree := os_free_heap hdr
    { s with head := L ++ [⟨s.brk, r, Status.STATUS_ALLOC⟩], brk := brk1 }
    s.brk L [] _ hhdr hsp (by simp) hl1
  have hz : NoAdjFree (L ++ [(⟨s.brk, r, Status.STATUS_FREE⟩ : block_meta)]) :=
    noAdj_append_last L _ hLa hlast
  simp only [coalesce_blocks_fixed hdr _ hz] at hfree
  have hl2 : (L ++ [(⟨s.brk, r, Status.STATUS_FREE⟩ : block_meta)]).any (dangling s.maps) =
      false := by
    rw [any_dangling_false]
    intro b hb
    simp only [List.mem_append, List.mem_singleton] at hb
    rcases hb with hb | hb
    · exact hLl b hb
    · subst hb; simp [dangling]
  have hfb := find_best_append_last r L ⟨s.brk, r, Status.STATUS_FREE⟩
    ⟨rfl, le_refl _⟩ 0 hnf
  exact ⟨_, hfree, fun hgap => malloc_again hdr
    { s with head := L ++ [⟨s.brk, r, Status.STATUS_FREE⟩], brk := brk1 } r m mm
    (0 + L.length) ⟨s.brk, r, Status.STATUS_FREE⟩ hm ham hgap hz hl2 hfb⟩

theorem roundtrip_body (hdr : Nat) (retry : State → Nat → Nat → Option (State × Nat))
    (s : State) (size m mm1 mm2 : Nat) (s1 : State) (p : Nat)
    (hhdr : 0 < hdr) (hh : hdr < 2 ^ 32) (hsize : size ≠ 0)
    (hr : align8 size < MMAP_THRESHOLD) (hm : m ≠ 0) (ham : align8 m ≤ align8 size)
    (hnodup : (s.head.map (fun x => x.addr)).Nodup)
    (hwords : ∀ b ∈ s.head, b.size < WORD)
    (hbrk : ∀ b ∈ s.head, b.addr ≠ s.brk)
    (hretry : ∀ brk1, sbrk s.brk HEAP_PREALLOC_SIZE = some brk1 →
      retry { s with head := [⟨s.brk, wsub HEAP_PREALLOC_SIZE hdr, Status.STATUS_FREE⟩],
                     brk := brk1, preallocated := true } (align8 size) mm1 = some (s1, p) →
      ∃ s2, os_free hdr s1 p = some s2 ∧
        ((∀ c ∈ s2.head, c.status = Status.STATUS_FREE →
            ¬(align8 m ≤ c.size ∧ c.size < align8 size)) →
          ∃ s3, os_malloc hdr s2 m mm2 = some (s3, p)))
    (h : os_malloc_body hdr retry s size mm1 = some (s1, p)) :
    ∃ s2, os_free hdr s1 p = some s2 ∧
      ((∀ c ∈ s2.head, c.status = Status.STATUS_FREE →
          ¬(align8 m ≤ c.size ∧ c.size < align8 size)) →
        ∃ s3, os_malloc hdr s2 m mm2 = some (s3, p)) := by
  obtain ⟨hlive, hcases⟩ := os_malloc_body_cases hdr retry s size mm1 s1 p hsize h
  rcases hcases with ⟨i, best, hbest, hres⟩ | ⟨hnone, last, brk1, hl, hlf, _, hs1, hp⟩ |
    ⟨hnone, hlast, hrest⟩
  · obtain ⟨f1, _⟩ := malloc_best_frame hdr s (coalesce_blocks hdr s.head) (align8 size) i best
    have e1 : s1 = (malloc_best hdr s (coalesce_blocks hdr s.head) (align8 size) i best).1 :=
      congrArg Prod.fst hres
    have e2 : p = best.addr + hdr := (congrArg Prod.snd hres).trans f1
    rw [e1, e2]
    exact roundtrip_best hdr s (align8 size) m mm2 i best hhdr hh hr hm ham hnodup hwords
      hlive hbest
  · rw [hs1, hp]
    exact roundtrip_tail hdr s (align8 size) m mm2 brk1 last hhdr hr hm ham hnodup hlive hnone
      hl hlf
  · rcases hrest with ⟨_, _, brk1, hsb, hre⟩ | ⟨_, _, brk1, _, hres⟩ | ⟨hge, _⟩
    · exact hretry brk1 hsb hre
    · have e1 : s1 = (malloc_append hdr { s with brk := brk1 } (coalesce_blocks hdr s.head)
          (align8 size) s.brk).1 := congrArg Prod.fst hres
      have e2 : p = s.brk + hdr := congrArg Prod.snd hres
      rw [e1, e2]
      exact roundtrip_new hdr s (align8 size) m mm2 brk1 hhdr hr hm ham hbrk hlive hnone hlast
    · omega

/-- C4 (as amended): for every block list whose headers have pairwise distinct addresses,
none of them the current program break, and machine-word sizes (header size below `2 ^ 32`),
every `n > 0` whose value rounded up to a multiple of 8 is below the mapping threshold, and
every `m` with `0 < m ≤ n`: if `os_malloc(n)` returns `p`, then `os_free(p)` returns, and
unless the list then holds a `STATUS_FREE` block whose capacity is at least `m` rounded up
and below `n` rounded up (a block that fits `m` better than the released one), `os_malloc(m)`
called right after it returns the same address `p`. -/
theorem C4_release_then_allocate_not_larger (hdr : Nat) (s : State) (n m mm1 mm2 : Nat)
    (s1 : State) (p : Nat)
    (hhdr : 0 < hdr) (hh : hdr < 2 ^ 32)
    (hn : 0 < n) (hr : roundUp8 n < MMAP_THRESHOLD)
    (hm : 0 < m) (hmn : m ≤ n)
    (hnodup : (s.head.map (fun x => x.addr)).Nodup)
    (hwords : ∀ b ∈ s.head, b.size < WORD)
    (hbrk : ∀ b ∈ s.head, b.addr ≠ s.brk)
    (h : os_malloc hdr s n mm1 = some (s1, p)) :
    ∃ s2, os_free hdr s1 p = some s2 ∧
      ((∀ c ∈ s2.head, c.status = Status.STATUS_FREE →
          ¬(roundUp8 m ≤ c.size ∧ c.size < roundUp8 n)) →
        ∃ s3, os_malloc hdr s2 m mm2 = some (s3, p)) := by
  have hW : WORD = 18446744073709551616 := by decide
  have hT : MMAP_THRESHOLD = 131072 := by decide
  have hP : HEAP_PREALLOC_SIZE = 131072 := by decide
  have hn7 : n + 7 < WORD := by unfold roundUp8 at hr; omega
  have hm7 : m + 7 < WORD := by omega
  have han := align8_eq_roundUp8 n hn7
  have ham := align8_eq_roundUp8 m hm7
  have hle : roundUp8 m ≤ roundUp8 n := by unfold roundUp8; omega
  have hr0 : roundUp8 n ≠ 0 := by unfold roundUp8; omega
  have hidem : align8 (roundUp8 n) = roundUp8 n := by
    rw [align8_eq_roundUp8 _ (by omega)]
    unfold roundUp8; omega
  rw [os_malloc_unfold] at h
  rw [← ham, ← han]
  refine roundtrip_body hdr _ s n m mm1 mm2 s1 p hhdr hh (Nat.ne_of_gt hn) (by rw [han]; exact hr)
    (Nat.ne_of_gt hm) (by rw [ham, han]; exact hle) hnodup hwords hbrk ?_ h
  intro brk1 hsb hre
  rw [han] at hre
  have hb1 : brk1 = s.brk + 131072 := by
    unfold sbrk at hsb
    rw [hP] at hsb
    rw [if_pos (by norm_num)] at hsb
    split at hsb
    · simp only [Option.some.injEq] at hsb; exact hsb.symm
    · cases hsb
  have key := roundtrip_body hdr (fun _ _ _ => none)
    { s with head := [⟨s.brk, wsub HEAP_PREALLOC_SIZE hdr, Status.STATUS_FREE⟩],
             brk := brk1, preallocated := true }
    (roundUp8 n) m mm1 mm2 s1 p hhdr hh hr0 (by rw [hidem]; exact hr) (Nat.ne_of_gt hm)
    (by rw [ham, hidem]; exact hle) (by simp) ?_ ?_ ?_ hre
  · rw [hidem, ← han] at key
    exact key
  · intro b hb
    simp only [List.mem_singleton] at hb
    subst hb
    exact Nat.mod_lt _ (by decide)
  · intro b hb
    simp only [List.mem_singleton] at hb
    subst hb
    simp only
    omega
  · intro brk2 _ hnone
    cases hnone

/-- C4 on the list left by malloc(8), malloc(16), malloc(8), free(second) with a 32-byte
header: malloc(100), free, malloc(50).  The free block of 16 bytes is too small for the
second request, so the condition on the list after the release holds. -/
theorem C4_witness :
    (0 < 32 ∧ 32 < 2 ^ 32 ∧ 0 < 100 ∧ roundUp8 100 < MMAP_THRESHOLD ∧ 0 < 50 ∧ 50 ≤ 100 ∧
      ((⟨[⟨4096, 8, Status.STATUS_ALLOC⟩, ⟨4136, 16, Status.STATUS_FREE⟩,
          ⟨4184, 8, Status.STATUS_ALLOC⟩, ⟨4224, 130912, Status.STATUS_FREE⟩],
          [], 135168, true⟩ : State).head.map (fun x => x.addr)).Nodup ∧
      (∀ b ∈ (⟨[⟨4096, 8, Status.STATUS_ALLOC⟩, ⟨4136, 16, Status.STATUS_FREE⟩,
          ⟨4184, 8, Status.STATUS_ALLOC⟩, ⟨4224, 130912, Status.STATUS_FREE⟩],
          [], 135168, true⟩ : State).head, b.size < WORD) ∧
      (∀ b ∈ (⟨[⟨4096, 8, Status.STATUS_ALLOC⟩, ⟨4136, 16, Status.STATUS_FREE⟩,
          ⟨4184, 8, Status.STATUS_ALLOC⟩, ⟨4224, 130912, Status.STATUS_FREE⟩],
          [], 135168, true⟩ : State).head, b.addr ≠ 135168) ∧
      os_malloc 32 ⟨[⟨4096, 8, Status.STATUS_ALLOC⟩, ⟨4136, 16, Status.STATUS_FREE⟩,
          ⟨4184, 8, Status.STATUS_ALLOC⟩, ⟨4224, 130912, Status.STATUS_FREE⟩],
          [], 135168, true⟩ 100 0 =
        some (⟨[⟨4096, 8, Status.STATUS_ALLOC⟩, ⟨4136, 16, Status.STATUS_FREE⟩,
          ⟨4184, 8, Status.STATUS_ALLOC⟩, ⟨4224, 104, Status.STATUS_ALLOC⟩,
          ⟨4360, 130776, Status.STATUS_FREE⟩], [], 135168, true⟩, 4256)) ∧
    (os_free 32 ⟨[⟨4096, 8, Status.STATUS_ALLOC⟩, ⟨4136, 16, Status.STATUS_FREE⟩,
          ⟨4184, 8, Status.STATUS_ALLOC⟩, ⟨4224, 104, Status.STATUS_ALLOC⟩,
          ⟨4360, 130776, Status.STATUS_FREE⟩], [], 135168, true⟩ 4256 =
        some ⟨[⟨4096, 8, Status.STATUS_ALLOC⟩, ⟨4136, 16, Status.STATUS_FREE⟩,
          ⟨4184, 8, Status.STATUS_ALLOC⟩, ⟨4224, 130912, Status.STATUS_FREE⟩],
          [], 135168, true⟩ ∧
      (∀ c ∈ (⟨[⟨4096, 8, Status.STATUS_ALLOC⟩, ⟨4136, 16, Status.STATUS_FREE⟩,
          ⟨4184, 8, Status.STATUS_ALLOC⟩, ⟨4224, 130912, Status.STATUS_FREE⟩],
          [], 135168, true⟩ : State).head, c.status = Status.STATUS_FREE →
          ¬(roundUp8 50 ≤ c.size ∧ c.size < roundUp8 100))) ∧
    ∃ s2, os_free 32 ⟨[⟨4096, 8, Status.STATUS_ALLOC⟩, ⟨4136, 16, Status.STATUS_FREE⟩,
          ⟨4184, 8, Status.STATUS_ALLOC⟩, ⟨4224, 104, Status.STATUS_ALLOC⟩,
          ⟨4360, 130776, Status.STATUS_FREE⟩], [], 135168, true⟩ 4256 = some s2 ∧
      ((∀ c ∈ s2.head, c.status = Status.STATUS_FREE →
          ¬(roundUp8 50 ≤ c.size ∧ c.size < roundUp8 100)) →
        ∃ s3, os_malloc 32 s2 50 0 = some (s3, 4256)) :=
  ⟨⟨by decide, by decide, by decide, by decide, by decide, by decide, by decide, by decide,
     by decide, by decide⟩,
   ⟨by decide, by decide⟩,
   C4_release_then_allocate_not_larger 32
     ⟨[⟨4096, 8, Status.STATUS_ALLOC⟩, ⟨4136, 16, Status.STATUS_FREE⟩,
       ⟨4184, 8, Status.STATUS_ALLOC⟩, ⟨4224, 130912, Status.STATUS_FREE⟩], [], 135168, true⟩
     100 50 0 0 _ 4256
     (by decide) (by decide) (by decide) (by decide) (by decide) (by decide) (by decide)
     (by decide) (by decide) (by decide)⟩

/-- C4 fails as stated: with a 32-byte header, the calls malloc(8), malloc(16), malloc(8),
free(second) from the empty state leave a free block of 16 bytes at 4136 before the free
rest of the heap.  Then `os_malloc(100)` returns 4256, `os_free(4256)` restores the list and
`os_malloc(8)`, a smaller request, is served by best fit from the 16-byte block, whose
capacity lies between 8 and 104, the two rounded sizes: it returns 4168, not 4256. -/
theorem C4_counterexample :
    run 32 (init 4096) [Op.malloc 8 0, Op.malloc 16 0, Op.malloc 8 0, Op.free 4168] =
      some ⟨[⟨4096, 8, Status.STATUS_ALLOC⟩, ⟨4136, 16, Status.STATUS_FREE⟩,
          ⟨4184, 8, Status.STATUS_ALLOC⟩, ⟨4224, 130912, Status.STATUS_FREE⟩],
          [], 135168, true⟩ ∧
    0 < 100 ∧ 100 < MMAP_THRESHOLD ∧ 0 < 8 ∧ 8 ≤ 100 ∧
    os_malloc 32 ⟨[⟨4096, 8, Status.STATUS_ALLOC⟩, ⟨4136, 16, Status.STATUS_FREE⟩,
          ⟨4184, 8, Status.STATUS_ALLOC⟩, ⟨4224, 130912, Status.STATUS_FREE⟩],
          [], 135168, true⟩ 100 0 =
      some (⟨[⟨4096, 8, Status.STATUS_ALLOC⟩, ⟨4136, 16, Status.STATUS_FREE⟩,
          ⟨4184, 8, Status.STATUS_ALLOC⟩, ⟨4224, 104, Status.STATUS_ALLOC⟩,
          ⟨4360, 130776, Status.STATUS_FREE⟩], [], 135168, true⟩, 4256) ∧
    os_free 32 ⟨[⟨4096, 8, Status.STATUS_ALLOC⟩, ⟨4136, 16, Status.STATUS_FREE⟩,
          ⟨4184, 8, Status.STATUS_ALLOC⟩, ⟨4224, 104, Status.STATUS_ALLOC⟩,
          ⟨4360, 130776, Status.STATUS_FREE⟩], [], 135168, true⟩ 4256 =
      some ⟨[⟨4096, 8, Status.STATUS_ALLOC⟩, ⟨4136, 16, Status.STATUS_FREE⟩,
          ⟨4184, 8, Status.STATUS_ALLOC⟩, ⟨4224, 130912, Status.STATUS_FREE⟩],
          [], 135168, true⟩ ∧
    os_malloc 32 ⟨[⟨4096, 8, Status.STATUS_ALLOC⟩, ⟨4136, 16, Status.STATUS_FREE⟩,
          ⟨4184, 8, Status.STATUS_ALLOC⟩, ⟨4224, 130912, Status.STATUS_FREE⟩],
          [], 135168, true⟩ 8 0 =
      some (⟨[⟨4096, 8, Status.STATUS_ALLOC⟩, ⟨4136, 16, Status.STATUS_ALLOC⟩,
          ⟨4184, 8, Status.STATUS_ALLOC⟩, ⟨4224, 130912, Status.STATUS_FREE⟩],
          [], 135168, true⟩, 4168) ∧
    4168 ≠ 4256 := by
  refine ⟨by decide, by decide, by decide, by decide, by decide, by decide, by decide,
    by decide, by decide⟩

/-! ## The alignment as a bit mask -/

theorem and_mask_eq (x : Nat) (hx : x < 2 ^ 64) : x &&& (2 ^ 64 - 8) = x / 8 * 8 := by
  have e1 : (2 : Nat) ^ 64 - 8 = (2 ^ 61 - 1) <<< 3 := by decide
  have e2 : x / 8 * 8 = (x >>> 3) <<< 3 := by
    rw [Nat.shiftLeft_eq, Nat.shiftRight_eq_div_pow]
  rw [e1, e2]
  apply Nat.eq_of_testBit_eq
  intro i
  simp only [Nat.testBit_and, Nat.testBit_shiftLeft, Nat.testBit_shiftRight,
    Nat.testBit_two_pow_sub_one]
  by_cases h3 : 3 ≤ i
  · by_cases h64 : i < 64
    · have : i - 3 < 61 := by omega
      have e : 3 + (i - 3) = i := by omega
      simp [h3, this, e]
    · have hlt : x < 2 ^ i := lt_of_lt_of_le hx (Nat.pow_le_pow_right (by decide) (by omega))
      have e : 3 + (i - 3) = i := by omega
      simp [h3, e, Nat.testBit_lt_two_pow hlt]
  · simp [h3]

/-- The definition of `align8` is the C expression `(size + 7) & ~7` on 64-bit words, `~7`
being the word `2 ^ 64 - 8`. -/
theorem align8_eq_land (size : Nat) : align8 size = wadd size 7 &&& (WORD - 8) := by
  unfold align8
  exact (and_mask_eq _ (wadd_lt size 7)).symm

/-! ## Capacity of the returned block when the alignment does not wrap -/

theorem os_malloc_body_capacity (hdr : Nat) (retry : State → Nat → Nat → Option (State × Nat))
    (s : State) (size m : Nat) (s1 : State) (p : Nat)
    (hsize : size ≠ 0) (hw : size + 7 < WORD)
    (hretry : ∀ s0, retry s0 (align8 size) m = some (s1, p) →
      ∃ b ∈ s1.head, b.addr + hdr = p ∧ align8 size ≤ b.size)
    (h : os_malloc_body hdr retry s size m = some (s1, p)) :
    ∃ b ∈ s1.head, b.addr + hdr = p ∧ size ≤ b.size := by
  have ha := align8_eq_roundUp8 size hw
  have hge : size ≤ align8 size := by rw [ha]; exact roundUp8_ge size
  have hrw : align8 size < WORD := by rw [ha]; unfold roundUp8; unfold WORD at hw ⊢; omega
  obtain ⟨_, hcases⟩ := os_malloc_body_cases hdr retry s size m s1 p hsize h
  rcases hcases with ⟨i, best, hbest, hres⟩ | ⟨hnone, last, brk1, hl, hlf, _, hs1, hp⟩ |
    ⟨hnone, hlast, hrest⟩
  · obtain ⟨_, _, hbs⟩ := find_best_at _ _ _ _ hbest
    by_cases hc : wadd (wadd (align8 size) hdr) 8 ≤ best.size ∧
        8 ≤ wsub (wsub best.size (align8 size)) hdr
    · simp only [malloc_best, hc, and_self, if_true, Prod.mk.injEq] at hres
      refine ⟨⟨best.addr, align8 size, Status.STATUS_ALLOC⟩, ?_, hres.2.symm, hge⟩
      rw [hres.1]; simp [replace_at]
    · simp only [malloc_best, hc, if_false, Prod.mk.injEq] at hres
      refine ⟨⟨best.addr, best.size, Status.STATUS_ALLOC⟩, ?_, hres.2.symm, le_trans hge hbs⟩
      rw [hres.1]; simp [replace_at]
  · have hlt : last.size < align8 size := by
      have := find_best_none_imp _ _ hnone last (List.mem_of_mem_getLast? hl)
      by_contra hcon
      exact this ⟨hlf, Nat.le_of_not_lt hcon⟩
    have e1 : wadd last.size (wsub (align8 size) last.size) = align8 size := by
      rw [wsub_eq _ _ (by omega) hrw, wadd_eq _ _ (by omega)]; omega
    refine ⟨⟨last.addr, align8 size, Status.STATUS_ALLOC⟩, ?_, hp.symm, hge⟩
    rw [hs1, e1]; simp
  · rcases hrest with ⟨_, _, brk1, _, hre⟩ | ⟨_, _, brk1, _, hres⟩ | ⟨_, maps1, _, hres⟩
    · obtain ⟨b, hb, h1, h2⟩ := hretry _ hre
      exact ⟨b, hb, h1, le_trans hge h2⟩
    · simp only [malloc_append, Prod.mk.injEq] at hres
      refine ⟨⟨s.brk, align8 size,
        if MMAP_THRESHOLD ≤ align8 size then Status.STATUS_MAPPED else Status.STATUS_ALLOC⟩,
        ?_, hres.2.symm, hge⟩
      rw [hres.1]; simp
    · simp only [malloc_append, Prod.mk.injEq] at hres
      refine ⟨⟨m, align8 size,
        if MMAP_THRESHOLD ≤ align8 size then Status.STATUS_MAPPED else Status.STATUS_ALLOC⟩,
        ?_, hres.2.symm, hge⟩
      rw [hres.1]; simp

/-- When `size + 7` fits a machine word, a pointer returned by `os_malloc(size)` belongs to a
block of the list whose recorded size is at least `size`. -/
theorem os_malloc_capacity (hdr : Nat) (s : State) (size m : Nat) (s1 : State) (p : Nat)
    (hsize : size ≠ 0) (hw : size + 7 < WORD)
    (h : os_malloc hdr s size m = some (s1, p)) :
    ∃ b ∈ s1.head, b.addr + hdr = p ∧ size ≤ b.size := by
  have ha := align8_eq_roundUp8 size hw
  have hW : WORD = 18446744073709551616 := by decide
  have hr0 : align8 size ≠ 0 := by rw [ha]; unfold roundUp8; omega
  have hrw : align8 size + 7 < WORD := by rw [ha]; unfold roundUp8; omega
  rw [os_malloc_unfold] at h
  refine os_malloc_body_capacity hdr _ s size m s1 p hsize hw ?_ h
  intro s0 hre
  refine os_malloc_body_capacity hdr _ s0 (align8 size) m s1 p hr0 hrw ?_ hre
  intro s00 hnone
  cases hnone

/-- Releasing a mapped block of the list: for every list entry with status
`STATUS_MAPPED` whose mapping is live, `os_free` of its payload pointer removes the mapping
and returns the block list unchanged, the released block included. -/
theorem os_free_mapped_keeps_list (hdr : Nat) (s : State) (pre post : List block_meta) (b : block_meta)
    (hhdr : 0 < hdr) (hsplit : split_at b.addr s.head = some (pre, b, post))
    (hb : b.status = Status.STATUS_MAPPED) (hlive : mapped_live s.maps b.addr = true) :
    os_free hdr s (b.addr + hdr) =
      some { s with maps := munmap s.maps b.addr } ∧
    b ∈ s.head := by
  have h1 : ¬ (b.addr + hdr = 0) := by omega
  have h2 : ¬ (b.addr + hdr < hdr) := by omega
  have hd : dangling s.maps b = false := by simp [dangling, hlive]
  refine ⟨?_, ?_⟩
  · unfold os_free
    rw [if_neg h1, if_neg h2, Nat.add_sub_cancel, hsplit]
    dsimp only
    rw [hd, if_neg (by decide), if_pos hb]
  · rw [(split_at_eq _ _ _ _ _ hsplit).1]; simp

/-! ## Shrinking without a split -/

/-- C11: for every pointer `ptr` whose header is an entry of the block list with status
`STATUS_ALLOC` and recorded size `c` (with `c + hdr + 8` a machine word, as for every block
that lies in the address space), and every `n > 0` whose value `r` rounded up to a multiple
of 8 satisfies `r ≤ c < r + hdr + 8`: `os_realloc(ptr, n)` returns `ptr` and the state after
the call is the state before it, so no block is split off and the block still records `c`. -/
theorem C11_resize_without_split (hdr : Nat) (s : State) (ptr n m : Nat)
    (pre post : List block_meta) (block : block_meta)
    (hptr : hdr < ptr)
    (hblock : split_at (ptr - hdr) s.head = some (pre, block, post))
    (hstatus : block.status = Status.STATUS_ALLOC)
    (hword : block.size + hdr + 8 < WORD)
    (hn : 0 < n) (hfit : roundUp8 n ≤ block.size)
    (hsmall : block.size < roundUp8 n + hdr + 8) :
    os_realloc hdr s ptr n m = some (s, ptr) := by
  have hW : WORD = 18446744073709551616 := by decide
  have hsz : n + 7 < WORD := by
    unfold roundUp8 at hfit
    omega
  have ha := align8_eq_roundUp8 n hsz
  have hd : dangling s.maps block = false := by simp [dangling, hstatus]
  have h1 : ¬ (ptr = 0) := by omega
  have h2 : ¬ (n = 0) := by omega
  have h3 : ¬ (ptr < hdr) := by omega
  have h4 : ¬ (ptr = hdr) := by omega
  have hnf : ¬ block.status = Status.STATUS_FREE := by rw [hstatus]; decide
  have hnm : ¬ block.status = Status.STATUS_MAPPED := by rw [hstatus]; decide
  have e1 : wadd (wadd (roundUp8 n) hdr) 8 = roundUp8 n + hdr + 8 := by
    rw [wadd_eq _ hdr (by omega), wadd_eq _ 8 (by omega)]
  have hc : ¬ (wadd (wadd (roundUp8 n) hdr) 8 ≤ block.size) := by rw [e1]; omega
  unfold os_realloc
  rw [if_neg h1, if_neg h2, if_neg h3, if_neg h4, hblock]
  dsimp only
  rw [hd, ha, if_neg (by decide), if_neg hnf, if_neg hnm, if_pos hfit, if_neg hc]

/-- C11 on the block of capacity 104 returned by `os_malloc(100)` in a fresh process, resized
to 80 (the remainder of 24 bytes has no room for a 32-byte header and 8 bytes). -/
theorem C11_witness :
    (32 < 4128 ∧
     split_at (4128 - 32)
       (⟨[⟨4096, 104, Status.STATUS_ALLOC⟩, ⟨4232, 130904, Status.STATUS_FREE⟩],
         [], 135168, true⟩ : State).head =
       some ([], ⟨4096, 104, Status.STATUS_ALLOC⟩, [⟨4232, 130904, Status.STATUS_FREE⟩]) ∧
     (⟨4096, 104, Status.STATUS_ALLOC⟩ : block_meta).status = Status.STATUS_ALLOC ∧
     (⟨4096, 104, Status.STATUS_ALLOC⟩ : block_meta).size + 32 + 8 < WORD ∧
     0 < 80 ∧ roundUp8 80 ≤ (⟨4096, 104, Status.STATUS_ALLOC⟩ : block_meta).size ∧
     (⟨4096, 104, Status.STATUS_ALLOC⟩ : block_meta).size < roundUp8 80 + 32 + 8) ∧
    os_realloc 32 ⟨[⟨4096, 104, Status.STATUS_ALLOC⟩, ⟨4232, 130904, Status.STATUS_FREE⟩],
         [], 135168, true⟩ 4128 80 0 =
      some (⟨[⟨4096, 104, Status.STATUS_ALLOC⟩, ⟨4232, 130904, Status.STATUS_FREE⟩],
         [], 135168, true⟩, 4128) :=
  ⟨⟨by decide, by decide, by decide, by decide, by decide, by decide, by decide⟩,
   C11_resize_without_split 32
     ⟨[⟨4096, 104, Status.STATUS_ALLOC⟩, ⟨4232, 130904, Status.STATUS_FREE⟩], [], 135168, true⟩
     4128 80 0 [] [⟨4232, 130904, Status.STATUS_FREE⟩] ⟨4096, 104, Status.STATUS_ALLOC⟩
     (by decide) (by decide) (by decide) (by decide) (by decide) (by decide) (by decide)⟩

/-! ## The split rule of os_malloc -/

/-- C13 (as amended): when the best-fit search of `os_malloc` selects the free block `best`
at position `i` of the coalesced list, of capacity `c`, for the rounded request `r` (with
`c` and `r + hdr + 8` machine words), the block is split exactly when `c ≥ r + hdr + 8`:
then the front block gets size `r` and status `STATUS_ALLOC`, and a `STATUS_FREE` block of
size `c - r - hdr` is inserted right after it, at address `best.addr + hdr + r`; when
`c < r + hdr + 8` the whole block becomes `STATUS_ALLOC` with its size `c` unchanged and no
block is inserted.  The payload pointer of `best` is returned in both cases. -/
theorem C13_split_rule (hdr : Nat) (s : State) (size m i : Nat) (best : block_meta)
    (hpos : 0 < size) (hword : roundUp8 size + hdr + 8 < WORD) (hc : best.size < WORD)
    (hlive : s.head.any (dangling s.maps) = false)
    (hbest : find_best (roundUp8 size) (coalesce_blocks hdr s.head) 0 none = some (i, best)) :
    (roundUp8 size + hdr + 8 ≤ best.size →
      os_malloc hdr s size m =
        some ({ s with head := (replace_at (coalesce_blocks hdr s.head) i
                  [⟨best.addr, roundUp8 size, Status.STATUS_ALLOC⟩,
                   ⟨best.addr + hdr + roundUp8 size, best.size - roundUp8 size - hdr,
                    Status.STATUS_FREE⟩]) },
              best.addr + hdr)) ∧
    (best.size < roundUp8 size + hdr + 8 →
      os_malloc hdr s size m =
        some ({ s with head := (replace_at (coalesce_blocks hdr s.head) i
                  [⟨best.addr, best.size, Status.STATUS_ALLOC⟩]) },
              best.addr + hdr)) := by
  have hW : WORD = 18446744073709551616 := by decide
  have hsz : size + 7 < WORD := by
    unfold roundUp8 at hword
    omega
  have ha := align8_eq_roundUp8 size hsz
  have hm := os_malloc_body_best hdr (os_malloc_body hdr (fun _ _ _ => none)) s size m i best
    (Nat.ne_of_gt hpos) hlive (by rw [ha]; exact hbest)
  obtain ⟨_, _, hbs⟩ := find_best_at _ _ _ _ hbest
  have e1 : wadd (wadd (roundUp8 size) hdr) 8 = roundUp8 size + hdr + 8 := by
    rw [wadd_eq _ hdr (by omega), wadd_eq _ 8 (by omega)]
  rw [os_malloc_unfold, hm, ha]
  constructor
  · intro hge
    have e2 : wsub (wsub best.size (roundUp8 size)) hdr = best.size - roundUp8 size - hdr := by
      rw [wsub_eq _ _ (by omega) hc, wsub_eq _ hdr (by omega) (by omega)]
    have hcond : wadd (wadd (roundUp8 size) hdr) 8 ≤ best.size ∧
        8 ≤ wsub (wsub best.size (roundUp8 size)) hdr := by
      rw [e1, e2]; omega
    unfold malloc_best
    dsimp only
    rw [if_pos hcond, e2]
  · intro hlt
    have hcond : ¬ (wadd (wadd (roundUp8 size) hdr) 8 ≤ best.size ∧
        8 ≤ wsub (wsub best.size (roundUp8 size)) hdr) := by
      rw [e1]; omega
    unfold malloc_best
    dsimp only
    rw [if_neg hcond]

/-- C13 on the list left by malloc(48), malloc(8), free(first) with a 32-byte header, for a
request of 8 bytes: the free block of 48 bytes is selected. -/
theorem C13_witness :
    (0 < 8 ∧ roundUp8 8 + 32 + 8 < WORD ∧
     (⟨4096, 48, Status.STATUS_FREE⟩ : block_meta).size < WORD ∧
     (⟨[⟨4096, 48, Status.STATUS_FREE⟩, ⟨4176, 8, Status.STATUS_ALLOC⟩,
        ⟨4216, 130920, Status.STATUS_FREE⟩], [], 135168, true⟩ : State).head.any
       (dangling []) = false ∧
     find_best (roundUp8 8) (coalesce_blocks 32
       (⟨[⟨4096, 48, Status.STATUS_FREE⟩, ⟨4176, 8, Status.STATUS_ALLOC⟩,
        ⟨4216, 130920, Status.STATUS_FREE⟩], [], 135168, true⟩ : State).head) 0 none =
       some (0, ⟨4096, 48, Status.STATUS_FREE⟩)) ∧
    ((roundUp8 8 + 32 + 8 ≤ 48 →
      os_malloc 32 ⟨[⟨4096, 48, Status.STATUS_FREE⟩, ⟨4176, 8, Status.STATUS_ALLOC⟩,
        ⟨4216, 130920, Status.STATUS_FREE⟩], [], 135168, true⟩ 8 0 =
        some (⟨replace_at (coalesce_blocks 32 [⟨4096, 48, Status.STATUS_FREE⟩,
                  ⟨4176, 8, Status.STATUS_ALLOC⟩, ⟨4216, 130920, Status.STATUS_FREE⟩]) 0
                  [⟨4096, roundUp8 8, Status.STATUS_ALLOC⟩,
                   ⟨4096 + 32 + roundUp8 8, 48 - roundUp8 8 - 32, Status.STATUS_FREE⟩],
                [], 135168, true⟩, 4096 + 32)) ∧
     (48 < roundUp8 8 + 32 + 8 →
      os_malloc 32 ⟨[⟨4096, 48, Status.STATUS_FREE⟩, ⟨4176, 8, Status.STATUS_ALLOC⟩,
        ⟨4216, 130920, Status.STATUS_FREE⟩], [], 135168, true⟩ 8 0 =
        some (⟨replace_at (coalesce_blocks 32 [⟨4096, 48, Status.STATUS_FREE⟩,
                  ⟨4176, 8, Status.STATUS_ALLOC⟩, ⟨4216, 130920, Status.STATUS_FREE⟩]) 0
                  [⟨4096, 48, Status.STATUS_ALLOC⟩],
                [], 135168, true⟩, 4096 + 32))) :=
  ⟨⟨by decide, by decide, by decide, by decide, by decide⟩,
   C13_split_rule 32
     ⟨[⟨4096, 48, Status.STATUS_FREE⟩, ⟨4176, 8, Status.STATUS_ALLOC⟩,
        ⟨4216, 130920, Status.STATUS_FREE⟩], [], 135168, true⟩ 8 0 0
     ⟨4096, 48, Status.STATUS_FREE⟩
     (by decide) (by decide) (by decide) (by decide) (by decide)⟩

/-- C13 fails as stated: with a 32-byte header, malloc(48), malloc(8), free(first) leave a
free block of capacity `c = 48` at the head of the list.  For the request `r = 8`,
`c = r + hdr + 8`, so `c` does not exceed `r + hdr + 8`; yet `os_malloc(8)` splits the block:
the front block gets size 8 and a free block of size 8 is inserted after it. -/
theorem C13_counterexample :
    run 32 (init 4096) [Op.malloc 48 0, Op.malloc 8 0, Op.free 4128] =
      some ⟨[⟨4096, 48, Status.STATUS_FREE⟩, ⟨4176, 8, Status.STATUS_ALLOC⟩,
             ⟨4216, 130920, Status.STATUS_FREE⟩], [], 135168, true⟩ ∧
    find_best (roundUp8 8) (coalesce_blocks 32 [⟨4096, 48, Status.STATUS_FREE⟩,
        ⟨4176, 8, Status.STATUS_ALLOC⟩, ⟨4216, 130920, Status.STATUS_FREE⟩]) 0 none =
      some (0, ⟨4096, 48, Status.STATUS_FREE⟩) ∧
    48 ≤ roundUp8 8 + 32 + 8 ∧
    os_malloc 32 ⟨[⟨4096, 48, Status.STATUS_FREE⟩, ⟨4176, 8, Status.STATUS_ALLOC⟩,
             ⟨4216, 130920, Status.STATUS_FREE⟩], [], 135168, true⟩ 8 0 =
      some (⟨[⟨4096, 8, Status.STATUS_ALLOC⟩, ⟨4136, 8, Status.STATUS_FREE⟩,
              ⟨4176, 8, Status.STATUS_ALLOC⟩, ⟨4216, 130920, Status.STATUS_FREE⟩],
             [], 135168, true⟩, 4128) := by
  refine ⟨by decide, by decide, by decide, by decide⟩

/-! ## Growing in place over free successors -/

/-- C14, the code at the failing input: with a 32-byte header, after `os_malloc(8)` in a
fresh process the block at 4096 (capacity 8) is followed by the free rest of the heap
(capacity 131000).  `os_realloc(4128, 16)` absorbs that successor, which brings the merged
capacity to `8 + 32 + 131000 = 131040 ≥ 16 + 32 + 8`, and returns the same pointer; but the
block is left with size 16 and no free block is inserted after it: the list is the single
block and the total of `size + hdr` drops from 131072 to 48. -/
theorem C14_excess_is_not_split_off :
    os_malloc 32 (init 4096) 8 0 =
      some (⟨[⟨4096, 8, Status.STATUS_ALLOC⟩, ⟨4136, 131000, Status.STATUS_FREE⟩],
             [], 135168, true⟩, 4128) ∧
    8 < align8 16 ∧
    grow_merge 32 [] (align8 16) ⟨4096, 8, Status.STATUS_ALLOC⟩
        [⟨4136, 131000, Status.STATUS_FREE⟩] =
      Grow.done [⟨4096, 16, Status.STATUS_ALLOC⟩] ∧
    align8 16 + 32 + 8 ≤ 8 + 32 + 131000 ∧
    os_realloc 32 ⟨[⟨4096, 8, Status.STATUS_ALLOC⟩, ⟨4136, 131000, Status.STATUS_FREE⟩],
             [], 135168, true⟩ 4128 16 0 =
      some (⟨[⟨4096, 16, Status.STATUS_ALLOC⟩], [], 135168, true⟩, 4128) := by
  refine ⟨by decide, by decide, by decide, by decide, by decide⟩

/-! ## Growing the free tail block -/

theorem os_malloc_tail_growth (hdr : Nat) (s : State) (size m brk1 : Nat) (last : block_meta)
    (hpos : 0 < size)
    (hlive : s.head.any (dangling s.maps) = false)
    (hnofit : ∀ b ∈ coalesce_blocks hdr s.head,
      ¬(b.status = Status.STATUS_FREE ∧ align8 size ≤ b.size))
    (hlast : (coalesce_blocks hdr s.head).getLast? = some last)
    (hfree : last.status = Status.STATUS_FREE)
    (hsbrk : sbrk s.brk (align8 size - last.size) = some brk1) :
    last.size < align8 size ∧
    0 < align8 size - last.size ∧
    wsub (align8 size) last.size = align8 size - last.size ∧
    os_malloc hdr s size m =
      some ({ s with
              head := (coalesce_blocks hdr s.head).dropLast ++
                [⟨last.addr, align8 size, Status.STATUS_ALLOC⟩],
              brk := brk1 },
            last.addr + hdr) ∧
    ((coalesce_blocks hdr s.head).dropLast ++
        [(⟨last.addr, align8 size, Status.STATUS_ALLOC⟩ : block_meta)]).length =
      (coalesce_blocks hdr s.head).length := by
  have hmem : last ∈ coalesce_blocks hdr s.head := List.mem_of_mem_getLast? hlast
  have hlt : last.size < align8 size := by
    by_contra hcon
    exact hnofit last hmem ⟨hfree, Nat.le_of_not_lt hcon⟩
  have hrw : align8 size < WORD := by
    unfold align8
    have := wadd_lt size 7
    omega
  have e1 : wsub (align8 size) last.size = align8 size - last.size :=
    wsub_eq _ _ (by omega) hrw
  have e2 : wadd last.size (align8 size - last.size) = align8 size := by
    rw [wadd_eq _ _ (by omega)]; omega
  have hf : Option.filter (fun b => decide (b.status = Status.STATUS_FREE))
      (coalesce_blocks hdr s.head).getLast? = some last := by
    rw [Option.filter_eq_some]; exact ⟨hlast, by simpa using hfree⟩
  refine ⟨hlt, by omega, e1, ?_, ?_⟩
  · rw [os_malloc_unfold]
    unfold os_malloc_body
    rw [if_neg (Nat.ne_of_gt hpos)]
    dsimp only
    rw [hlive, find_best_eq_none _ _ hnofit]
    simp only [Bool.false_eq_true, if_false]
    rw [hf]
    simp only [e1, hsbrk, e2]
  · have e := getLast?_split _ last hlast
    rw [List.length_append, List.length_singleton]
    conv_rhs => rw [e]
    rw [List.length_append, List.length_singleton]

/-- C15, the code at the failing input: with a 32-byte header, `os_malloc(8)` in a fresh
process leaves an allocated block of 8 bytes and a `STATUS_FREE` block of 131000 bytes that
ends at the program break 135168.  The next request `os_malloc(2 ^ 64 - 8)` is its own
aligned value `r`; no free block holds it and the last block is free, so the tail-growth
step is reached.  The difference `r - 131000` is computed without unsigned underflow, but
it is at least `2 ^ 63`: `sbrk` reads it as the signed increment `-131008`, succeeds, and
moves the program break down to 4160.  The call returns the payload pointer 4168 of the
last block, now recorded with size `r` and `STATUS_ALLOC`: the heap has shrunk instead of
being extended, and the returned payload lies above the program break. -/
theorem C15_tail_growth_shrinks_heap :
    os_malloc 32 (init 4096) 8 0 =
      some (⟨[⟨4096, 8, Status.STATUS_ALLOC⟩, ⟨4136, 131000, Status.STATUS_FREE⟩],
             [], 135168, true⟩, 4128) ∧
    align8 (2 ^ 64 - 8) = 2 ^ 64 - 8 ∧
    find_best (2 ^ 64 - 8)
      (coalesce_blocks 32 [⟨4096, 8, Status.STATUS_ALLOC⟩, ⟨4136, 131000, Status.STATUS_FREE⟩])
      0 none = none ∧
    (coalesce_blocks 32
      [⟨4096, 8, Status.STATUS_ALLOC⟩, ⟨4136, 131000, Status.STATUS_FREE⟩]).getLast? =
      some ⟨4136, 131000, Status.STATUS_FREE⟩ ∧
    wsub (2 ^ 64 - 8) 131000 = 2 ^ 64 - 8 - 131000 ∧
    2 ^ 63 ≤ wsub (2 ^ 64 - 8) 131000 ∧
    WORD - wsub (2 ^ 64 - 8) 131000 = 131008 ∧
    sbrk 135168 (wsub (2 ^ 64 - 8) 131000) = some 4160 ∧
    os_malloc 32 ⟨[⟨4096, 8, Status.STATUS_ALLOC⟩, ⟨4136, 131000, Status.STATUS_FREE⟩],
             [], 135168, true⟩ (2 ^ 64 - 8) 0 =
      some (⟨[⟨4096, 8, Status.STATUS_ALLOC⟩, ⟨4136, 2 ^ 64 - 8, Status.STATUS_ALLOC⟩],
             [], 4160, true⟩, 4168) ∧
    4160 < 135168 ∧ 4160 < 4168 := by
  refine ⟨by decide, by decide, by decide, by decide, by decide, by decide, by decide,
    by decide, by decide, by decide, by decide⟩

/-! ## The threshold of os_calloc -/

theorem os_calloc_no_overflow (hdr : Nat) (s : State) (nmemb size m : Nat)
    (hn : 0 < nmemb) (hs : 0 < size) (hprod : nmemb * size < WORD) :
    os_calloc hdr s nmemb size m =
      if 4080 ≤ align8 (nmemb * size) then
        match mmap s.maps m (wadd (align8 (nmemb * size)) hdr) with
        | none => none
        | some maps1 =>
          some ({ s with
                  head := (write_header s.head ⟨m, align8 (nmemb * size), Status.STATUS_MAPPED⟩),
                  maps := maps1 }, m + hdr)
      else os_malloc hdr s (align8 (nmemb * size)) m := by
  have hov : calloc_overflow WORD nmemb size = false := by
    cases h : calloc_overflow WORD nmemb size with
    | false => rfl
    | true =>
      have := (calloc_overflow_iff WORD nmemb size hn).mp h
      omega
  have e : mul_mod WORD nmemb size = nmemb * size := Nat.mod_eq_of_lt hprod
  unfold os_calloc
  rw [if_neg (by omega), hov, if_neg (by decide)]
  dsimp only
  rw [e]

theorem os_calloc_threshold_4080 (hdr : Nat) (s : State) (nmemb size m : Nat)
    (hn : 0 < nmemb) (hs : 0 < size)
    (hword : roundUp8 (nmemb * size) + hdr < WORD) (hhdr : 0 < hdr) :
    (4080 ≤ roundUp8 (nmemb * size) →
      os_calloc hdr s nmemb size m =
        some ({ s with
                head := (write_header s.head
                  ⟨m, roundUp8 (nmemb * size), Status.STATUS_MAPPED⟩),
                maps := (m, roundUp8 (nmemb * size) + hdr) :: s.maps }, m + hdr)) ∧
    (roundUp8 (nmemb * size) < 4080 →
      os_calloc hdr s nmemb size m = os_malloc hdr s (roundUp8 (nmemb * size)) m) := by
  have hW : WORD = 18446744073709551616 := by decide
  have hsz : nmemb * size + 7 < WORD := by
    unfold roundUp8 at hword
    omega
  have ha := align8_eq_roundUp8 (nmemb * size) hsz
  have h := os_calloc_no_overflow hdr s nmemb size m hn hs (by omega)
  rw [ha] at h
  constructor
  · intro hge
    rw [h, if_pos hge, wadd_eq _ _ hword]
    unfold mmap
    rw [if_neg (by omega)]
  · intro hlt
    rw [h, if_neg (by omega)]

/-- C18, the code at the failing input: with the 32-byte header of the platform, one
virtual-memory page minus the header is `4096 - 32 = 4064` bytes.  The request
`os_calloc(1, 4064)` does not overflow and has `total = 4064`, which is at that value, so it
is to be served by a fresh mapping.  The program compares `total` with the constant 4080
instead: the request is handed to `os_malloc(4064)`, which preallocates the heap and returns
the heap block at 4096, pointer 4128; no mapping exists afterwards and the address
1048576 that `mmap` would have returned is not used. -/
theorem C18_calloc_below_4080_stays_on_heap :
    calloc_overflow WORD 1 4064 = false ∧
    align8 (mul_mod WORD 1 4064) = 4064 ∧ 4096 - 32 ≤ align8 (mul_mod WORD 1 4064) ∧
    os_calloc 32 (init 4096) 1 4064 1048576 =
      some (⟨[⟨4096, 4064, Status.STATUS_ALLOC⟩, ⟨8192, 126944, Status.STATUS_FREE⟩],
             [], 135168, true⟩, 4128) ∧
    os_calloc 32 (init 4096) 1 4064 1048576 = os_malloc 32 (init 4096) 4064 1048576 ∧
    os_calloc 32 (init 4096) 1 4080 1048576 =
      some (⟨[], [(1048576, 4112)], 4096, false⟩, 1048608) := by
  refine ⟨by decide, by decide, by decide, by decide, by decide, by decide⟩

/-! ## The preallocation replaces the list -/

/-- C19, the code at the failing input: with a 32-byte header, in a fresh process
`os_malloc(204800)` links a `STATUS_MAPPED` block (at the mapped address 1048576) into the
list and returns 1048608.  That block is live when `os_malloc(100)` is called next: no free
block exists, the last block is not free, and the preallocation flag is still clear, so the
heap is preallocated and `head` is overwritten with the preallocated block.  After the call
the mapped block is no entry of the list, although its mapping is still live. -/
theorem C19_preallocation_drops_mapped_block :
    os_malloc 32 (init 4096) 204800 1048576 =
      some (⟨[⟨1048576, 204800, Status.STATUS_MAPPED⟩], [(1048576, 204832)], 4096, false⟩,
            1048608) ∧
    os_malloc 32 ⟨[⟨1048576, 204800, Status.STATUS_MAPPED⟩], [(1048576, 204832)], 4096, false⟩
        100 0 =
      some (⟨[⟨4096, 104, Status.STATUS_ALLOC⟩, ⟨4232, 130904, Status.STATUS_FREE⟩],
             [(1048576, 204832)], 135168, true⟩, 4128) ∧
    (⟨1048576, 204800, Status.STATUS_MAPPED⟩ : block_meta) ∉
      [(⟨4096, 104, Status.STATUS_ALLOC⟩ : block_meta), ⟨4232, 130904, Status.STATUS_FREE⟩] ∧
    mapped_live [(1048576, 204832)] 1048576 = true := by
  refine ⟨by decide, by decide, by decide, by decide⟩

/-! ## The header that os_calloc stores in its mapping -/

theorem os_calloc_fresh_mapping (hdr : Nat) (s : State) (nmemb size m : Nat)
    (hn : 0 < nmemb) (hs : 0 < size) (hhdr : 0 < hdr)
    (hword : roundUp8 (nmemb * size) + hdr < WORD)
    (hge : 4080 ≤ roundUp8 (nmemb * size))
    (hfresh : ∀ b ∈ s.head, b.addr ≠ m) :
    ∃ s1 s2 : State,
      os_calloc hdr s nmemb size m = some (s1, m + hdr) ∧
      s1.head = s.head ∧ mapped_live s1.maps m = true ∧
      os_free hdr s1 (m + hdr) = some s2 ∧
      s2.head = s.head ∧ mapped_live s2.maps m = false := by
  have hW : WORD = 18446744073709551616 := by decide
  have hsz : nmemb * size + 7 < WORD := by
    unfold roundUp8 at hword
    omega
  have ha := align8_eq_roundUp8 (nmemb * size) hsz
  have h := os_calloc_no_overflow hdr s nmemb size m hn hs (by omega)
  rw [ha, if_pos hge, wadd_eq _ _ hword] at h
  have hmap : mmap s.maps m (roundUp8 (nmemb * size) + hdr) =
      some ((m, roundUp8 (nmemb * size) + hdr) :: s.maps) := by
    unfold mmap
    rw [if_neg (by omega)]
  rw [hmap] at h
  dsimp only at h
  rw [write_header_fresh _ _ hfresh] at h
  refine ⟨{ s with maps := (m, roundUp8 (nmemb * size) + hdr) :: s.maps },
    { s with maps := munmap ((m, roundUp8 (nmemb * size) + hdr) :: s.maps) m },
    h, rfl, by simp [mapped_live], ?_, rfl, mapped_live_munmap _ _⟩
  have h1 : ¬ (m + hdr = 0) := by omega
  have h2 : ¬ (m + hdr < hdr) := by omega
  unfold os_free
  rw [if_neg h1, if_neg h2, Nat.add_sub_cancel]
  dsimp only
  rw [split_at_none m s.head hfresh]
  simp [mapped_live]

/-- C20, the code at the failing input: with a 32-byte header, the calls `os_malloc(131040)`,
`os_malloc(204800)` (mapped at 1048576, pointer 1048608), `os_malloc(8)` and
`os_free(1048608)` from the state of a fresh process leave a list of three nodes whose second
node is the header of the mapped block; its region has been unmapped, no mapping is live.
The kernel may hand out the address 1048576 again: `os_calloc(1, 204800)`, a request at or
above the threshold of `os_calloc` whose product does not overflow, then stores its header
with `next = NULL` at 1048576, which is still the second node of the list.  The call returns
1048608, the payload of a node of the list, and the list ends at that node: the third node,
an allocated heap block, is no longer part of it.  The list is not left unchanged and the
returned block is an entry of it.  A later `os_free(1048608)` unmaps the region and keeps
the shortened list. -/
theorem C20_calloc_header_cuts_list :
    run 32 (init 4096)
        [Op.malloc 131040 0, Op.malloc 204800 1048576, Op.malloc 8 0, Op.free 1048608] =
      some ⟨[⟨4096, 131040, Status.STATUS_ALLOC⟩, ⟨1048576, 204800, Status.STATUS_MAPPED⟩,
             ⟨135168, 8, Status.STATUS_ALLOC⟩], [], 135208, true⟩ ∧
    mapped_live [] 1048576 = false ∧
    calloc_overflow WORD 1 204800 = false ∧ 4080 ≤ align8 (mul_mod WORD 1 204800) ∧
    os_calloc 32 ⟨[⟨4096, 131040, Status.STATUS_ALLOC⟩, ⟨1048576, 204800, Status.STATUS_MAPPED⟩,
             ⟨135168, 8, Status.STATUS_ALLOC⟩], [], 135208, true⟩ 1 204800 1048576 =
      some (⟨[⟨4096, 131040, Status.STATUS_ALLOC⟩, ⟨1048576, 204800, Status.STATUS_MAPPED⟩],
             [(1048576, 204832)], 135208, true⟩, 1048608) ∧
    split_at (1048608 - 32)
        [⟨4096, 131040, Status.STATUS_ALLOC⟩, ⟨1048576, 204800, Status.STATUS_MAPPED⟩] =
      some ([⟨4096, 131040, Status.STATUS_ALLOC⟩], ⟨1048576, 204800, Status.STATUS_MAPPED⟩, []) ∧
    [(⟨4096, 131040, Status.STATUS_ALLOC⟩ : block_meta),
        ⟨1048576, 204800, Status.STATUS_MAPPED⟩] ≠
      [⟨4096, 131040, Status.STATUS_ALLOC⟩, ⟨1048576, 204800, Status.STATUS_MAPPED⟩,
        ⟨135168, 8, Status.STATUS_ALLOC⟩] ∧
    os_free 32 ⟨[⟨4096, 131040, Status.STATUS_ALLOC⟩, ⟨1048576, 204800, Status.STATUS_MAPPED⟩],
             [(1048576, 204832)], 135208, true⟩ 1048608 =
      some ⟨[⟨4096, 131040, Status.STATUS_ALLOC⟩, ⟨1048576, 204800, Status.STATUS_MAPPED⟩],
             [], 135208, true⟩ := by
  refine ⟨by decide, by decide, by decide, by decide, by decide, by decide, by decide,
    by decide⟩

/-! ## The self-call of os_malloc -/

/-- Once the heap has been preallocated, `os_malloc` makes no self-call. -/
theorem os_malloc_body_preallocated (hdr : Nat)
    (r1 r2 : State → Nat → Nat → Option (State × Nat)) (s : State) (size m : Nat)
    (hpre : s.preallocated = true) :
    os_malloc_body hdr r1 s size m = os_malloc_body hdr r2 s size m := by
  unfold os_malloc_body
  simp [hpre]

/-- The self-call is made in a state whose preallocation flag is set. -/
theorem os_malloc_body_congr (hdr : Nat)
    (r1 r2 : State → Nat → Nat → Option (State × Nat))
    (h : ∀ s0 size0 m0, s0.preallocated = true → r1 s0 size0 m0 = r2 s0 size0 m0)
    (s : State) (size m : Nat) :
    os_malloc_body hdr r1 s size m = os_malloc_body hdr r2 s size m := by
  have key : ∀ brk1 : Nat,
      r1 { s with head := [⟨s.brk, wsub HEAP_PREALLOC_SIZE hdr, Status.STATUS_FREE⟩],
                  brk := brk1, preallocated := true } (align8 size) m =
      r2 { s with head := [⟨s.brk, wsub HEAP_PREALLOC_SIZE hdr, Status.STATUS_FREE⟩],
                  brk := brk1, preallocated := true } (align8 size) m :=
    fun brk1 => h _ _ _ rfl
  unfold os_malloc_body
  split
  · rfl
  · dsimp only
    split
    · rfl
    · split
      · rfl
      · split
        · rfl
        · split
          · split
            · split
              · rfl
              · exact key _
            · rfl
          · rfl

/-- Two levels of `os_malloc` are all that is ever used: more fuel changes nothing. -/
theorem os_malloc_fuel_enough (hdr : Nat) (k : Nat) (s : State) (size m : Nat) :
    os_malloc_fuel hdr (k + 2) s size m = os_malloc hdr s size m := by
  show os_malloc_body hdr (os_malloc_fuel hdr (k + 1)) s size m =
    os_malloc_body hdr (os_malloc_fuel hdr 1) s size m
  apply os_malloc_body_congr
  intro s0 size0 m0 hpre
  show os_malloc_body hdr (os_malloc_fuel hdr k) s0 size0 m0 =
    os_malloc_body hdr (os_malloc_fuel hdr 0) s0 size0 m0
  exact os_malloc_body_preallocated hdr _ _ s0 size0 m0 hpre

theorem os_malloc_body_tail (hdr : Nat) (retry : State → Nat → Nat → Option (State × Nat))
    (s : State) (size m brk1 : Nat) (last : block_meta) (hs : size ≠ 0)
    (hlive : s.head.any (dangling s.maps) = false)
    (hnone : find_best (align8 size) (coalesce_blocks hdr s.head) 0 none = none)
    (hlast : (coalesce_blocks hdr s.head).getLast? = some last)
    (hfree : last.status = Status.STATUS_FREE)
    (hsbrk : sbrk s.brk (wsub (align8 size) last.size) = some brk1) :
    os_malloc_body hdr retry s size m =
      some ({ s with
              head := (coalesce_blocks hdr s.head).dropLast ++
                [⟨last.addr, wadd last.size (wsub (align8 size) last.size),
                  Status.STATUS_ALLOC⟩],
              brk := brk1 },
            last.addr + hdr) := by
  have hf : Option.filter (fun b => decide (b.status = Status.STATUS_FREE))
      (coalesce_blocks hdr s.head).getLast? = some last := by
    rw [Option.filter_eq_some]; exact ⟨hlast, by simpa using hfree⟩
  unfold os_malloc_body
  rw [if_neg hs]
  dsimp only
  rw [hlive, hnone]
  simp only [Bool.false_eq_true, if_false]
  rw [hf]
  simp only [hsbrk]

theorem os_malloc_body_prealloc (hdr : Nat) (retry : State → Nat → Nat → Option (State × Nat))
    (s : State) (size m brk1 : Nat) (hs : size ≠ 0)
    (hlive : s.head.any (dangling s.maps) = false)
    (hnone : find_best (align8 size) (coalesce_blocks hdr s.head) 0 none = none)
    (hlast : ∀ last, (coalesce_blocks hdr s.head).getLast? = some last →
        last.status ≠ Status.STATUS_FREE)
    (hthr : align8 size < MMAP_THRESHOLD) (hpre : s.preallocated = false)
    (hsbrk : sbrk s.brk HEAP_PREALLOC_SIZE = some brk1) :
    os_malloc_body hdr retry s size m =
      retry { s with head := [⟨s.brk, wsub HEAP_PREALLOC_SIZE hdr, Status.STATUS_FREE⟩],
                     brk := brk1, preallocated := true } (align8 size) m := by
  have hf : Option.filter (fun b => decide (b.status = Status.STATUS_FREE))
      (coalesce_blocks hdr s.head).getLast? = none := by
    cases hl : (coalesce_blocks hdr s.head).getLast? with
    | none => rfl
    | some last => simp [Option.filter, hlast last hl]
  unfold os_malloc_body
  rw [if_neg hs]
  dsimp only
  rw [hlive, hnone]
  simp only [Bool.false_eq_true, if_false]
  rw [hf]
  simp only [hthr, if_true, hpre, hsbrk]

/-- C16: for every state in which `os_malloc` reaches the preallocation (no unmapped list
entry, after coalescing no `STATUS_FREE` block fits and the last block is not `STATUS_FREE`,
flag `preallocated` clear), every `size > 0` whose value `r` rounded up to a multiple of 8 is
below `MMAP_THRESHOLD`, and a header of at most 128 KiB, with the heap extensions
succeeding: the call returns, and what it returns is what the body of `os_malloc` returns on
the list made of the single preallocated `STATUS_FREE` block of `128 KiB - hdr` bytes at the
old break, with no further self-call available.  That retry is served from the
preallocated block, by best fit when `r ≤ 128 KiB - hdr` and by tail growth otherwise, and
the returned pointer is the payload of the preallocated block.  One level of self-call is
needed (with none the call does not return) and one is enough (any larger bound gives the
same result). -/
theorem C16_single_retry (hdr : Nat) (s : State) (size m : Nat)
    (hpos : 0 < size) (hr : roundUp8 size < MMAP_THRESHOLD)
    (hhdr : hdr ≤ HEAP_PREALLOC_SIZE)
    (hlive : s.head.any (dangling s.maps) = false)
    (hnofit : ∀ b ∈ coalesce_blocks hdr s.head,
      ¬(b.status = Status.STATUS_FREE ∧ roundUp8 size ≤ b.size))
    (hlast : ∀ last, (coalesce_blocks hdr s.head).getLast? = some last →
      last.status ≠ Status.STATUS_FREE)
    (hpre : s.preallocated = false)
    (hbrk : s.brk + HEAP_PREALLOC_SIZE + hdr < WORD) :
    ∃ s1 : State,
      os_malloc hdr s size m = some (s1, s.brk + hdr) ∧
      os_malloc hdr s size m =
        os_malloc_body hdr (fun _ _ _ => none)
          ⟨[⟨s.brk, HEAP_PREALLOC_SIZE - hdr, Status.STATUS_FREE⟩], s.maps,
            s.brk + HEAP_PREALLOC_SIZE, true⟩ (roundUp8 size) m ∧
      ((roundUp8 size ≤ HEAP_PREALLOC_SIZE - hdr ∧
        (s1, s.brk + hdr) =
          malloc_best hdr
            ⟨[⟨s.brk, HEAP_PREALLOC_SIZE - hdr, Status.STATUS_FREE⟩], s.maps,
              s.brk + HEAP_PREALLOC_SIZE, true⟩
            [⟨s.brk, HEAP_PREALLOC_SIZE - hdr, Status.STATUS_FREE⟩] (roundUp8 size) 0
            ⟨s.brk, HEAP_PREALLOC_SIZE - hdr, Status.STATUS_FREE⟩) ∨
       (HEAP_PREALLOC_SIZE - hdr < roundUp8 size ∧
        s1 = ⟨[⟨s.brk, roundUp8 size, Status.STATUS_ALLOC⟩], s.maps,
              s.brk + HEAP_PREALLOC_SIZE + (roundUp8 size - (HEAP_PREALLOC_SIZE - hdr)),
              true⟩)) ∧
      os_malloc_fuel hdr 1 s size m = none ∧
      ∀ k, os_malloc_fuel hdr (k + 2) s size m = some (s1, s.brk + hdr) := by
  have hW : WORD = 18446744073709551616 := by decide
  have hT : MMAP_THRESHOLD = 131072 := by decide
  have hP : HEAP_PREALLOC_SIZE = 131072 := by decide
  have hsz : size + 7 < WORD := by unfold roundUp8 at hr; omega
  have ha := align8_eq_roundUp8 size hsz
  have hr0 : roundUp8 size ≠ 0 := by unfold roundUp8; omega
  have hidem : align8 (roundUp8 size) = roundUp8 size := by
    rw [align8_eq_roundUp8 _ (by omega)]
    unfold roundUp8; omega
  have hnone : find_best (align8 size) (coalesce_blocks hdr s.head) 0 none = none :=
    find_best_eq_none _ _ (by rw [ha]; exact hnofit)
  have hsb : sbrk s.brk HEAP_PREALLOC_SIZE = some (s.brk + HEAP_PREALLOC_SIZE) := by
    unfold sbrk
    rw [if_pos (by rw [hP]; norm_num), if_pos (by omega)]
  have ePs : wsub HEAP_PREALLOC_SIZE hdr = HEAP_PREALLOC_SIZE - hdr :=
    wsub_eq _ _ hhdr (by omega)
  have hstep : ∀ retry : State → Nat → Nat → Option (State × Nat),
      os_malloc_body hdr retry s size m =
        retry ⟨[⟨s.brk, HEAP_PREALLOC_SIZE - hdr, Status.STATUS_FREE⟩], s.maps,
          s.brk + HEAP_PREALLOC_SIZE, true⟩ (roundUp8 size) m := by
    intro retry
    rw [os_malloc_body_prealloc hdr retry s size m _ (Nat.ne_of_gt hpos) hlive hnone hlast
      (by rw [ha]; exact hr) hpre hsb, ePs, ha]
  have hone : os_malloc_fuel hdr 1 s size m = none := hstep (os_malloc_fuel hdr 0)
  have htwo : os_malloc hdr s size m =
      os_malloc_body hdr (fun _ _ _ => none)
        ⟨[⟨s.brk, HEAP_PREALLOC_SIZE - hdr, Status.STATUS_FREE⟩], s.maps,
          s.brk + HEAP_PREALLOC_SIZE, true⟩ (roundUp8 size) m := by
    rw [os_malloc_unfold]
    exact hstep _
  have hl0 : ([(⟨s.brk, HEAP_PREALLOC_SIZE - hdr, Status.STATUS_FREE⟩ : block_meta)]).any
      (dangling s.maps) = false := by simp [dangling]
  by_cases hfit : roundUp8 size ≤ HEAP_PREALLOC_SIZE - hdr
  · -- best fit on the preallocated block
    have hb : find_best (align8 (roundUp8 size))
        (coalesce_blocks hdr [⟨s.brk, HEAP_PREALLOC_SIZE - hdr, Status.STATUS_FREE⟩]) 0 none =
        some (0, ⟨s.brk, HEAP_PREALLOC_SIZE - hdr, Status.STATUS_FREE⟩) := by
      simp [hidem, coalesce_blocks, coalesce_from, find_best, hfit]
    have hm := os_malloc_body_best hdr (fun _ _ _ => none)
      ⟨[⟨s.brk, HEAP_PREALLOC_SIZE - hdr, Status.STATUS_FREE⟩], s.maps,
        s.brk + HEAP_PREALLOC_SIZE, true⟩ (roundUp8 size) m 0 _ hr0 hl0 hb
    rw [hidem] at hm
    simp only [coalesce_blocks, coalesce_from] at hm
    obtain ⟨f1, _⟩ := malloc_best_frame hdr
      ⟨[⟨s.brk, HEAP_PREALLOC_SIZE - hdr, Status.STATUS_FREE⟩], s.maps,
        s.brk + HEAP_PREALLOC_SIZE, true⟩
      [⟨s.brk, HEAP_PREALLOC_SIZE - hdr, Status.STATUS_FREE⟩] (roundUp8 size) 0
      ⟨s.brk, HEAP_PREALLOC_SIZE - hdr, Status.STATUS_FREE⟩
    have hres : os_malloc hdr s size m = some
        ((malloc_best hdr
          ⟨[⟨s.brk, HEAP_PREALLOC_SIZE - hdr, Status.STATUS_FREE⟩], s.maps,
            s.brk + HEAP_PREALLOC_SIZE, true⟩
          [⟨s.brk, HEAP_PREALLOC_SIZE - hdr, Status.STATUS_FREE⟩] (roundUp8 size) 0
          ⟨s.brk, HEAP_PREALLOC_SIZE - hdr, Status.STATUS_FREE⟩).1, s.brk + hdr) := by
      rw [htwo, hm, ← f1]
    refine ⟨_, hres, htwo, Or.inl ⟨hfit, ?_⟩, hone, fun k => ?_⟩
    · rw [← f1]
    · rw [os_malloc_fuel_enough, hres]
  · -- the block is too small: it is grown
    have hlt : HEAP_PREALLOC_SIZE - hdr < roundUp8 size := Nat.lt_of_not_le hfit
    have hnone0 : find_best (align8 (roundUp8 size))
        (coalesce_blocks hdr [⟨s.brk, HEAP_PREALLOC_SIZE - hdr, Status.STATUS_FREE⟩]) 0 none =
        none := by
      simp [hidem, coalesce_blocks, coalesce_from, find_best, hfit]
    have e1 : wsub (roundUp8 size) (HEAP_PREALLOC_SIZE - hdr) =
        roundUp8 size - (HEAP_PREALLOC_SIZE - hdr) := wsub_eq _ _ (by omega) (by omega)
    have e2 : wadd (HEAP_PREALLOC_SIZE - hdr) (roundUp8 size - (HEAP_PREALLOC_SIZE - hdr)) =
        roundUp8 size := by
      rw [wadd_eq _ _ (by omega)]; omega
    have hsb2 : sbrk (s.brk + HEAP_PREALLOC_SIZE)
        (wsub (align8 (roundUp8 size)) (HEAP_PREALLOC_SIZE - hdr)) =
        some (s.brk + HEAP_PREALLOC_SIZE + (roundUp8 size - (HEAP_PREALLOC_SIZE - hdr))) := by
      rw [hidem, e1]
      unfold sbrk
      rw [if_pos (by omega), if_pos (by omega)]
    have hm := os_malloc_body_tail hdr (fun _ _ _ => none)
      ⟨[⟨s.brk, HEAP_PREALLOC_SIZE - hdr, Status.STATUS_FREE⟩], s.maps,
        s.brk + HEAP_PREALLOC_SIZE, true⟩ (roundUp8 size) m _
      ⟨s.brk, HEAP_PREALLOC_SIZE - hdr, Status.STATUS_FREE⟩ hr0 hl0 hnone0
      (by simp [coalesce_blocks, coalesce_from]) rfl hsb2
    rw [hidem, e1, e2] at hm
    simp only [coalesce_blocks, coalesce_from, List.dropLast_single, List.nil_append] at hm
    have hres : os_malloc hdr s size m = some
        (⟨[⟨s.brk, roundUp8 size, Status.STATUS_ALLOC⟩], s.maps,
          s.brk + HEAP_PREALLOC_SIZE + (roundUp8 size - (HEAP_PREALLOC_SIZE - hdr)), true⟩,
         s.brk + hdr) := by
      rw [htwo, hm]
    refine ⟨_, hres, htwo, Or.inr ⟨hlt, rfl⟩, hone, fun k => ?_⟩
    rw [os_malloc_fuel_enough, hres]

/-- C16 in a fresh process with a 32-byte header, for a request of 100 bytes. -/
theorem C16_witness :
    (0 < 100 ∧ roundUp8 100 < MMAP_THRESHOLD ∧ 32 ≤ HEAP_PREALLOC_SIZE ∧
     (init 4096).head.any (dangling (init 4096).maps) = false ∧
     (∀ b ∈ coalesce_blocks 32 (init 4096).head,
       ¬(b.status = Status.STATUS_FREE ∧ roundUp8 100 ≤ b.size)) ∧
     (∀ last, (coalesce_blocks 32 (init 4096).head).getLast? = some last →
       last.status ≠ Status.STATUS_FREE) ∧
     (init 4096).preallocated = false ∧
     (init 4096).brk + HEAP_PREALLOC_SIZE + 32 < WORD) ∧
    ∃ s1 : State,
      os_malloc 32 (init 4096) 100 0 = some (s1, (init 4096).brk + 32) ∧
      os_malloc 32 (init 4096) 100 0 =
        os_malloc_body 32 (fun _ _ _ => none)
          ⟨[⟨(init 4096).brk, HEAP_PREALLOC_SIZE - 32, Status.STATUS_FREE⟩], (init 4096).maps,
            (init 4096).brk + HEAP_PREALLOC_SIZE, true⟩ (roundUp8 100) 0 ∧
      ((roundUp8 100 ≤ HEAP_PREALLOC_SIZE - 32 ∧
        (s1, (init 4096).brk + 32) =
          malloc_best 32
            ⟨[⟨(init 4096).brk, HEAP_PREALLOC_SIZE - 32, Status.STATUS_FREE⟩],
              (init 4096).maps, (init 4096).brk + HEAP_PREALLOC_SIZE, true⟩
            [⟨(init 4096).brk, HEAP_PREALLOC_SIZE - 32, Status.STATUS_FREE⟩] (roundUp8 100) 0
            ⟨(init 4096).brk, HEAP_PREALLOC_SIZE - 32, Status.STATUS_FREE⟩) ∨
       (HEAP_PREALLOC_SIZE - 32 < roundUp8 100 ∧
        s1 = ⟨[⟨(init 4096).brk, roundUp8 100, Status.STATUS_ALLOC⟩], (init 4096).maps,
              (init 4096).brk + HEAP_PREALLOC_SIZE +
                (roundUp8 100 - (HEAP_PREALLOC_SIZE - 32)), true⟩)) ∧
      os_malloc_fuel 32 1 (init 4096) 100 0 = none ∧
      ∀ k, os_malloc_fuel 32 (k + 2) (init 4096) 100 0 = some (s1, (init 4096).brk + 32) :=
  ⟨⟨by decide, by decide, by decide, by decide, by decide, (fun last h => by cases h),
     by decide, by decide⟩,
   C16_single_retry 32 (init 4096) 100 0 (by decide) (by decide) (by decide) (by decide)
     (by decide) (fun last h => by cases h) (by decide) (by decide)⟩

/-! ## Coalescing against its description -/

theorem total_bytes_cons (hdr : Nat) (b : block_meta) (l : List block_meta) :
    total_bytes hdr (b :: l) = b.size + hdr + total_bytes hdr l := by
  simp [total_bytes]

theorem total_bytes_dropWhile_le (hdr : Nat) (p : block_meta → Bool) (l : List block_meta) :
    total_bytes hdr (l.dropWhile p) ≤ total_bytes hdr l := by
  induction l with
  | nil => exact Nat.le_refl _
  | cons b l ih =>
    rw [List.dropWhile_cons]
    split
    · rw [total_bytes_cons]; omega
    · exact Nat.le_refl _

theorem coalesce_from_not_free (hdr : Nat) (b : block_meta) (rest : List block_meta)
    (h : b.status ≠ Status.STATUS_FREE) :
    coalesce_from hdr b rest = b :: coalesce_blocks hdr rest := by
  cases rest with
  | nil => rfl
  | cons n rest =>
    rw [coalesce_from, if_neg (fun hc => h hc.1)]
    rfl

theorem coalesce_from_run (hdr : Nat) (rest : List block_meta) :
    ∀ b : block_meta, b.status = Status.STATUS_FREE →
      b.size + total_bytes hdr rest < WORD →
      coalesce_from hdr b rest =
        ⟨b.addr, b.size +
            ((rest.takeWhile (fun x => decide (x.status = Status.STATUS_FREE))).map
              (fun x => x.size)).sum +
            (rest.takeWhile (fun x => decide (x.status = Status.STATUS_FREE))).length * hdr,
          Status.STATUS_FREE⟩ ::
        coalesce_blocks hdr
          (rest.dropWhile (fun x => decide (x.status = Status.STATUS_FREE))) := by
  induction rest with
  | nil =>
    intro b hb _
    obtain ⟨a, sz, st⟩ := b
    cases hb
    simp [coalesce_from, coalesce_blocks]
  | cons n rest ih =>
    intro b hb hlt
    rw [total_bytes_cons] at hlt
    by_cases hn : n.status = Status.STATUS_FREE
    · have hw : wadd b.size (wadd n.size hdr) = b.size + n.size + hdr := by
        unfold wadd
        have h1 : (n.size + hdr) % WORD = n.size + hdr := Nat.mod_eq_of_lt (by omega)
        rw [h1, Nat.mod_eq_of_lt (by omega)]
        omega
      rw [coalesce_from, if_pos ⟨hb, hn⟩,
        ih { b with size := wadd b.size (wadd n.size hdr) } hb (by dsimp only; rw [hw]; omega)]
      have ht : (n :: rest).takeWhile (fun x => decide (x.status = Status.STATUS_FREE)) =
          n :: rest.takeWhile (fun x => decide (x.status = Status.STATUS_FREE)) := by
        rw [List.takeWhile_cons, if_pos (by simpa using hn)]
      have hd : (n :: rest).dropWhile (fun x => decide (x.status = Status.STATUS_FREE)) =
          rest.dropWhile (fun x => decide (x.status = Status.STATUS_FREE)) := by
        rw [List.dropWhile_cons, if_pos (by simpa using hn)]
      rw [ht, hd]
      dsimp only
      rw [hw]
      simp only [List.map_cons, List.sum_cons, List.length_cons]
      congr 2
      rw [Nat.add_mul]
      omega
    · have ht : (n :: rest).takeWhile (fun x => decide (x.status = Status.STATUS_FREE)) = [] := by
        rw [List.takeWhile_cons, if_neg (by simpa using hn)]
      have hd : (n :: rest).dropWhile (fun x => decide (x.status = Status.STATUS_FREE)) =
          n :: rest := by
        rw [List.dropWhile_cons, if_neg (by simpa using hn)]
      rw [coalesce_from, if_neg (fun hc => hn hc.2), ht, hd]
      obtain ⟨a, sz, st⟩ := b
      cases hb
      simp [coalesce_blocks]

theorem coalesce_blocks_eq_spec (hdr : Nat) :
    ∀ (n : Nat) (l : List block_meta), l.length ≤ n → total_bytes hdr l < WORD →
      coalesce_blocks hdr l = spec_merge_runs hdr l := by
  intro n
  induction n with
  | zero =>
    intro l hl _
    cases l with
    | nil => rw [spec_merge_runs]; rfl
    | cons b rest => simp at hl
  | succ n ih =>
    intro l hl hlt
    cases l with
    | nil => rw [spec_merge_runs]; rfl
    | cons b rest =>
      rw [total_bytes_cons] at hlt
      simp only [List.length_cons, Nat.succ_le_succ_iff] at hl
      rw [spec_merge_runs]
      by_cases hb : b.status = Status.STATUS_FREE
      · rw [if_pos hb]
        dsimp only
        have hle := total_bytes_dropWhile_le hdr
          (fun x => decide (x.status = Status.STATUS_FREE)) rest
        rw [← ih (rest.dropWhile (fun x => decide (x.status = Status.STATUS_FREE)))
          (Nat.le_trans (List.Sublist.length_le (List.dropWhile_sublist _)) hl) (by omega)]
        exact coalesce_from_run hdr rest b hb (by omega)
      · rw [if_neg hb, ← ih rest hl (by omega)]
        exact coalesce_from_not_free hdr b rest hb

theorem coalesce_from_total (hdr : Nat) (rest : List block_meta) :
    ∀ b : block_meta, b.size + hdr + total_bytes hdr rest < WORD →
      total_bytes hdr (coalesce_from hdr b rest) = b.size + hdr + total_bytes hdr rest := by
  induction rest with
  | nil => intro b _; simp [coalesce_from, total_bytes]
  | cons n rest ih =>
    intro b hlt
    rw [total_bytes_cons] at hlt
    rw [coalesce_from, total_bytes_cons]
    split
    · have hw : wadd b.size (wadd n.size hdr) = b.size + n.size + hdr := by
        unfold wadd
        have h1 : (n.size + hdr) % WORD = n.size + hdr := Nat.mod_eq_of_lt (by omega)
        rw [h1, Nat.mod_eq_of_lt (by omega)]
        omega
      rw [ih { b with size := wadd b.size (wadd n.size hdr) } (by dsimp only; rw [hw]; omega)]
      dsimp only
      rw [hw]
      omega
    · rw [total_bytes_cons, ih n (by omega)]

theorem coalesce_from_filter (hdr : Nat) (rest : List block_meta) :
    ∀ b : block_meta,
      (coalesce_from hdr b rest).filter (fun x => decide (x.status ≠ Status.STATUS_FREE)) =
        (b :: rest).filter (fun x => decide (x.status ≠ Status.STATUS_FREE)) := by
  induction rest with
  | nil => intro b; rfl
  | cons n rest ih =>
    intro b
    rw [coalesce_from]
    split
    · rename_i h
      rw [ih]
      simp [List.filter_cons, h.1, h.2]
    · simp only [List.filter_cons, ih n]

/-- C12: on a block list whose blocks, headers included, fit the address space,
`coalesce_blocks` returns the list the specification describes (`spec_merge_runs`): every
maximal run of `k` consecutive FREE blocks becomes one FREE block at the address of the first
of them, of size the sum of the sizes of the run plus `(k - 1) * hdr`, and the other blocks
stay.  The result has no two adjacent FREE blocks, the ALLOCATED and MAPPED blocks are the
same and in the same order, and the total of `size + hdr` over the list is unchanged. -/
theorem C12_coalesce_merges_runs (hdr : Nat) (l : List block_meta)
    (hfit : total_bytes hdr l < WORD) :
    coalesce_blocks hdr l = spec_merge_runs hdr l ∧
    NoAdjFree (coalesce_blocks hdr l) ∧
    (coalesce_blocks hdr l).filter (fun x => decide (x.status ≠ Status.STATUS_FREE)) =
      l.filter (fun x => decide (x.status ≠ Status.STATUS_FREE)) ∧
    total_bytes hdr (coalesce_blocks hdr l) = total_bytes hdr l := by
  refine ⟨coalesce_blocks_eq_spec hdr l.length l (Nat.le_refl _) hfit,
    coalesce_blocks_noAdj hdr l, ?_, ?_⟩
  · cases l with
    | nil => rfl
    | cons b rest => exact coalesce_from_filter hdr rest b
  · cases l with
    | nil => rfl
    | cons b rest =>
      rw [total_bytes_cons] at hfit
      rw [total_bytes_cons]
      exact coalesce_from_total hdr rest b hfit

/-- C12 at a list with a run of two FREE blocks, an ALLOCATED block and a run of three FREE
blocks, with a header of 32 bytes. -/
theorem C12_witness :
    total_bytes 32 [⟨0, 8, Status.STATUS_FREE⟩, ⟨40, 16, Status.STATUS_FREE⟩,
      ⟨88, 8, Status.STATUS_ALLOC⟩, ⟨128, 8, Status.STATUS_FREE⟩,
      ⟨168, 8, Status.STATUS_FREE⟩, ⟨208, 8, Status.STATUS_FREE⟩] < WORD ∧
    coalesce_blocks 32 [⟨0, 8, Status.STATUS_FREE⟩, ⟨40, 16, Status.STATUS_FREE⟩,
      ⟨88, 8, Status.STATUS_ALLOC⟩, ⟨128, 8, Status.STATUS_FREE⟩,
      ⟨168, 8, Status.STATUS_FREE⟩, ⟨208, 8, Status.STATUS_FREE⟩] =
      [⟨0, 56, Status.STATUS_FREE⟩, ⟨88, 8, Status.STATUS_ALLOC⟩,
        ⟨128, 88, Status.STATUS_FREE⟩] ∧
    (coalesce_blocks 32 [⟨0, 8, Status.STATUS_FREE⟩, ⟨40, 16, Status.STATUS_FREE⟩,
      ⟨88, 8, Status.STATUS_ALLOC⟩, ⟨128, 8, Status.STATUS_FREE⟩,
      ⟨168, 8, Status.STATUS_FREE⟩, ⟨208, 8, Status.STATUS_FREE⟩] =
      spec_merge_runs 32 [⟨0, 8, Status.STATUS_FREE⟩, ⟨40, 16, Status.STATUS_FREE⟩,
      ⟨88, 8, Status.STATUS_ALLOC⟩, ⟨128, 8, Status.STATUS_FREE⟩,
      ⟨168, 8, Status.STATUS_FREE⟩, ⟨208, 8, Status.STATUS_FREE⟩]) :=
  ⟨by decide, by decide,
   (C12_coalesce_merges_runs 32 _ (by decide)).1⟩

/-! ## Sizes are multiples of 8 -/

end OsMem
